import Mathlib

/-!
# Verification of the `wembedding_service` batch-embedding pipeline

Shallow embedding of `wembeddings/wembeddings.py` (class `WEmbeddings`) and
`compute_conllu_embeddings.py`.  Pure Python/numpy/TF bookkeeping is translated
into Lean functions; the pretrained transformer itself is an external library
and is modelled as an abstract per-row function from a padded row of subword
ids to the list of hidden-state layers (a transformer encoder processes the
examples of a batch independently; the attention mask passed by the code is
`subwords ≠ 0`, a function of the row itself, so it is not a separate input).
Hidden vectors are modelled as functions `ℕ → ℚ` (coordinate → value).
-/

/-- A hidden-state vector, indexed by coordinate. -/
def Vec : Type := ℕ → ℚ

/-- The zero hidden vector. -/
def vzero : Vec := fun _ => 0

/-- Python `max(xs)`: `none` on an empty sequence (`ValueError`). -/
def pyMax : List ℕ → Option ℕ
  | [] => none
  | x :: xs => some (xs.foldl max x)

/-- Clamp a (possibly negative) Python index into `[0, len]`, as Python
slicing does for step 1: negative indices count from the end and are clamped
below by 0, nonnegative ones are clamped above by `len`. -/
def pyClampIdx (len : ℕ) (i : Int) : ℕ :=
  if i < 0 then ((len : Int) + i).toNat else min i.toNat len

/-- Python slice `xs[start:stop]` (step 1); `none` stands for an omitted
bound. -/
def pySlice {α : Type} (xs : List α) (start stop : Option Int) : List α :=
  let s := match start with | none => 0 | some i => pyClampIdx xs.length i
  let e := match stop with | none => xs.length | some i => pyClampIdx xs.length i
  (xs.take e).drop s

/-- `numpy`-style right padding of a row to width `n` with pad value `pad`
(`np_subwords[i, :len(subword)] = subword` on a prefilled array). -/
def padTo (n : ℕ) (pad : ℕ) (row : List ℕ) : List ℕ :=
  row ++ List.replicate (n - row.length) pad

/-- Positions of the entries of `segIds` equal to `k`. -/
def bucketPositions (segIds : List ℕ) (k : ℕ) : List ℕ :=
  (List.range segIds.length).filter fun p => segIds.getD p 0 == k

/-- `tf.math.segment_mean data segIds`: one output row per segment id in
`0 … max segIds` (the ids produced by the code are sorted, for which TF's
output has `max+1` rows); an empty segment yields the zero vector, which the
`0/0 = 0` convention of `ℚ` gives for free.  Empty input yields empty
output. -/
def segmentMean (data : ℕ → Vec) (segIds : List ℕ) : List Vec :=
  if segIds.isEmpty then [] else
    (List.range (segIds.foldl max 0 + 1)).map fun k => fun d =>
      ((bucketPositions segIds k).map fun p => data p d).sum
        / ((bucketPositions segIds k).length : ℚ)

/-- `tf.math.reduce_mean(layers, axis=0)`: elementwise unweighted mean of a
list of (position-indexed) tensors. -/
def reduceMean (ts : List (ℕ → Vec)) : ℕ → Vec :=
  fun p d => ((ts.map fun t => t p d).sum) / (ts.length : ℚ)

/-- A constructed embedding model (`WEmbeddings._Model` plus the registry
entry it was built from): the subword tokenizer `encode` (with no special
tokens), the model-specific boundary token ids used by
`build_inputs_with_special_tokens`, the abstract transformer `layersOf`
returning the tuple of hidden-state layers for one padded row of subword ids,
and the layer-slice bounds from `MODELS_MAP`. -/
structure WModel where
  encode : String → List ℕ
  clsId : ℕ
  sepId : ℕ
  layersOf : List ℕ → List (ℕ → Vec)
  layerStart : Int
  layerEnd : Option Int

/-- `MAX_SUBWORDS_PER_SENTENCE`. -/
def MAX_SUBWORDS_PER_SENTENCE : ℕ := 510

/-- `tokenizer.build_inputs_with_special_tokens`: wrap a subword sequence in
the model-specific start/end boundary tokens. -/
def wrapTokens (m : WModel) (ids : List ℕ) : List ℕ :=
  m.clsId :: ids ++ [m.sepId]

/-- `tokenizer.encode(word[:max_form_len], add_special_tokens=False)`. -/
def encodeWord (m : WModel) (maxFormLen : ℕ) (w : String) : List ℕ :=
  m.encode (w.take maxFormLen)

/-- State of the per-sentence tokenization loop: the already closed
(wrapped) parts and the still open current part.  In the Python code these
are the non-final and final entries of this sentence's slices of the
`segments`, `subwords` and `parts[-1]` lists. -/
structure PartialSent where
  doneSegments : List (List ℕ)
  doneSubwords : List (List ℕ)
  doneParts : List ℕ
  curSegments : List ℕ
  curSubwords : List ℕ
  curPart : ℕ

/-- Initial state for a sentence (`segments.append([]); subwords.append([]);
parts.append([0])`). -/
def initSent : PartialSent := ⟨[], [], [], [], [], 0⟩

/-- Body of `for word in sentence` in `WEmbeddings.compute_embeddings`:
if appending the word's subwords would exceed `MAX_SUBWORDS_PER_SENTENCE`,
close the current part (wrapping it with boundary tokens) and start a new
one; then append the word's subwords, its segment indices, and bump the
current part's word count. -/
def processWord (m : WModel) (maxFormLen : ℕ) (st : PartialSent) (w : String) :
    PartialSent :=
  let ws := encodeWord m maxFormLen w
  let st :=
    if st.curSubwords.length + ws.length > MAX_SUBWORDS_PER_SENTENCE then
      ⟨st.doneSegments ++ [st.curSegments],
       st.doneSubwords ++ [wrapTokens m st.curSubwords],
       st.doneParts ++ [st.curPart], [], [], 0⟩
    else st
  ⟨st.doneSegments, st.doneSubwords, st.doneParts,
   st.curSegments ++ List.replicate ws.length st.curPart,
   st.curSubwords ++ ws, st.curPart + 1⟩

/-- One sentence's contribution to the `segments`, `subwords` and `parts`
lists after its loop finished and the final part was wrapped. -/
structure SentenceTok where
  segments : List (List ℕ)
  subwords : List (List ℕ)
  parts : List ℕ

/-- Tokenize one sentence: run the word loop, then close the final part
(`subwords[-1] = ...build_inputs_with_special_tokens(subwords[-1])`). -/
def tokenizeSentence (m : WModel) (maxFormLen : ℕ) (sentence : List String) :
    SentenceTok :=
  let st := sentence.foldl (processWord m maxFormLen) initSent
  ⟨st.doneSegments ++ [st.curSegments],
   st.doneSubwords ++ [wrapTokens m st.curSubwords],
   st.doneParts ++ [st.curPart]⟩

/-- All sentences of the batch, tokenized. -/
def tokenizedBatch (m : WModel) (maxFormLen : ℕ)
    (sentences : List (List String)) : List SentenceTok :=
  sentences.map (tokenizeSentence m maxFormLen)

/-- The flat `segments` list of the batch (one entry per part). -/
def batchSegments (m : WModel) (maxFormLen : ℕ)
    (sentences : List (List String)) : List (List ℕ) :=
  (tokenizedBatch m maxFormLen sentences).flatMap (·.segments)

/-- The flat `subwords` list of the batch (one wrapped entry per part). -/
def batchSubwords (m : WModel) (maxFormLen : ℕ)
    (sentences : List (List String)) : List (List ℕ) :=
  (tokenizedBatch m maxFormLen sentences).flatMap (·.subwords)

/-- The `parts` list of the batch (one word-count list per sentence). -/
def batchParts (m : WModel) (maxFormLen : ℕ)
    (sentences : List (List String)) : List (List ℕ) :=
  (tokenizedBatch m maxFormLen sentences).map (·.parts)

/-- `np_subwords`: every part row padded with `0` to width `maxSub`. -/
def npSubwords (m : WModel) (maxFormLen : ℕ) (sentences : List (List String))
    (maxSub : ℕ) : List (List ℕ) :=
  (batchSubwords m maxFormLen sentences).map (padTo maxSub 0)

/-- `np_segments`: every part's segment row padded with the
`max_sentence_len` sentinel to width `maxSub - 1`. -/
def npSegments (m : WModel) (maxFormLen : ℕ) (sentences : List (List String))
    (maxSub maxLen : ℕ) : List (List ℕ) :=
  (batchSegments m maxFormLen sentences).map (padTo (maxSub - 1) maxLen)

/-- The traced TF graph function `compute_embeddings(subwords, segments)`
(lines 60–69): per row, average the configured slice of hidden-state layers
into per-subword embeddings, drop the first position (the leading boundary
token), `segment_mean` by the segment-index row, and drop the last segment
bucket (`[:, :-1]`).  `tf.map_fn` over the zipped rows. -/
def graphWordEmbeddings (m : WModel) (npSub npSeg : List (List ℕ)) :
    List (List Vec) :=
  (npSub.zip npSeg).map fun pr =>
    let subwordEmbeddings :=
      reduceMean (pySlice (m.layersOf pr.1) (some m.layerStart) m.layerEnd)
    (segmentMean (fun p => subwordEmbeddings (p + 1)) pr.2).dropLast

/-- Reassembly loop (`# Concatenate splitted sentences`): for each
sentence, concatenate the first `count` rows of each of its part rows of the
graph output, tracking `current_sentence_part` as the running row index. -/
def reassembleGo (ewp : List (List Vec)) :
    List (List ℕ) → ℕ → List (List Vec)
  | [], _ => []
  | sp :: rest, cur =>
      (sp.enum.flatMap fun x => (ewp.getD (cur + x.1) []).take x.2)
        :: reassembleGo ewp rest (cur + sp.length)

/-- `embeddings`, the reassembled per-sentence arrays. -/
def reassemble (ewp : List (List Vec)) (parts : List (List ℕ)) :
    List (List Vec) :=
  reassembleGo ewp parts 0

/-- Python errors the pipeline can raise. -/
inductive PyErr
  | keyError
  | valueError
deriving DecidableEq

/-- Body of `WEmbeddings.compute_embeddings` after the model lookup:
tokenize, compute both maxima (`max` of an empty sequence raises
`ValueError` — the first one, over `sentences`, is reached first), pad, run
the graph, reassemble. -/
def computeEmbeddingsBody (m : WModel) (maxFormLen : ℕ)
    (sentences : List (List String)) : Except PyErr (List (List Vec)) :=
  match pyMax (sentences.map List.length),
        pyMax ((batchSubwords m maxFormLen sentences).map List.length) with
  | some maxLen, some maxSub =>
      .ok (reassemble
        (graphWordEmbeddings m
          (npSubwords m maxFormLen sentences maxSub)
          (npSegments m maxFormLen sentences maxSub maxLen))
        (batchParts m maxFormLen sentences))
  | _, _ => .error .valueError

/-- `WEmbeddings.compute_embeddings`: look the model name up in the
constructed registry; if absent, print a warning to stderr and then fail
with `KeyError` on `self._models[model]`.  The first component collects the
stderr warnings emitted before the result (or error) of the second. -/
def computeEmbeddings (models : List (String × WModel)) (name : String)
    (maxFormLen : ℕ) (sentences : List (List String)) :
    List String × Except PyErr (List (List Vec)) :=
  match models.lookup name with
  | none => (["No such WEmbeddings model " ++ name], .error .keyError)
  | some m => ([], computeEmbeddingsBody m maxFormLen sentences)

/-! ## `compute_conllu_embeddings.py` -/

/-- A CoNLL-U line, as a list of characters (`line.rstrip("\n")` already
applied by the reading loop). -/
def ConlluLine : Type := List Char

/-- Split a line on tab characters (`line.split("\t")`). -/
def splitTab (l : List Char) : List (List Char) :=
  l.foldr
    (fun c acc =>
      if c = '\t' then [] :: acc
      else (c :: acc.headD []) :: acc.tail)
    [[]]

/-- `re.match(r"^[0-9]*\t", line)`: a (possibly empty) digit prefix followed
immediately by a tab.  The regex engine's backtracking is equivalent to
checking the maximal digit prefix, since any shorter match would need a tab
where a digit stands. -/
def isTokenLine (l : List Char) : Bool :=
  l.getD (l.takeWhile Char.isDigit).length 'x' == '\t'

/-- `sentences[-1].append(x)`. -/
def appendToLast {α : Type} (xss : List (List α)) (x : α) : List (List α) :=
  xss.dropLast ++ [xss.getLastD [] ++ [x]]

/-- The `assert len(columns) == 10` failure. -/
inductive ConlluErr
  | assertionError
deriving DecidableEq

/-- The CoNLL-U reading loop of `compute_conllu_embeddings.py` (lines 41–54)
over the remaining lines, given the sentences read so far and the
`in_sentence` flag.  A nonempty line opens a new sentence when none is open;
a line matching `^[0-9]*\t` is split on tabs, asserted to have 10 columns,
and its second column appended to the current sentence; the trailing
`if line.startswith("#"): continue` is the last statement of the loop body
and has no effect. -/
def loadConlluGo :
    List ConlluLine → List (List (List Char)) → Bool →
      Except ConlluErr (List (List (List Char)))
  | [], sents, _ => .ok sents
  | line :: rest, sents, inSent =>
    if line.isEmpty then loadConlluGo rest sents false
    else
      let sents := if inSent then sents else sents ++ [[]]
      if isTokenLine line then
        if (splitTab line).length = 10 then
          loadConlluGo rest (appendToLast sents ((splitTab line).getD 1 [])) true
        else .error .assertionError
      else loadConlluGo rest sents true

/-- Load a CoNLL-U file given as a list of lines. -/
def loadConllu (lines : List ConlluLine) :
    Except ConlluErr (List (List (List Char))) :=
  loadConlluGo lines [] false

/-- The `zipfile` compression constants. -/
inductive CompressionMethod
  | stored
  | deflated
  | bzip2
  | lzma
deriving DecidableEq

/-- Whether a `zipfile` compression method actually compresses entry data:
`ZIP_STORED` writes entries uncompressed, every other method compresses. -/
def CompressionMethod.isCompressed : CompressionMethod → Bool
  | .stored => false
  | _ => true

/-- An output dtype (`args.dtype`), abstracted to the elementwise conversion
`astype` performs. -/
structure Dtype where
  cast : ℚ → ℚ

/-- `sentence_embeddings.astype(args.dtype)` on a 2D array. -/
def castArr (dt : Dtype) (a : List Vec) : List Vec :=
  a.map fun v => fun d => dt.cast (v d)

/-- One named entry of the output archive. -/
structure ArchiveEntry where
  key : String
  data : List Vec

/-- The finished output archive: the compression mode it was opened with and
its entries in writing order. -/
structure Archive where
  compression : CompressionMethod
  entries : List ArchiveEntry

/-- Python `range(0, n, step)` for `step > 0`. -/
def pyRange3 (n step : ℕ) : List ℕ :=
  (List.range ((n + step - 1) / step)).map (· * step)

/-- Python `xs[i:j]` for lists with `0 ≤ i ≤ j`. -/
def pySliceList {α : Type} (xs : List α) (i j : ℕ) : List α :=
  (xs.take j).drop i

/-- The writing loop of `compute_conllu_embeddings.py` (lines 59–64): open
the archive with `zipfile.ZIP_STORED`, then for each batch slice
`sentences[i:i+batch_size]` compute its embeddings and write each one,
downcast with `astype(args.dtype)`, under the key `"arr_{i+j}"`.
`embed` abstracts `wembeddings.compute_embeddings(args.model, ·)`. -/
def writeArchive (embed : List (List String) → List (List Vec)) (dt : Dtype)
    (sentences : List (List String)) (batchSize : ℕ) : Archive :=
  { compression := .stored
    entries :=
      (pyRange3 sentences.length batchSize).flatMap fun i =>
        (embed (pySliceList sentences i (i + batchSize))).enum.map fun je =>
          { key := "arr_" ++ toString (i + je.1), data := castArr dt je.2 } }

/-! ## Reference definitions used to state refinement claims -/

/-- Index of the group of `counts` that contains flat position `k`. -/
def partIndex : List ℕ → ℕ → ℕ
  | [], _ => 0
  | c :: rest, k => if k < c then 0 else partIndex rest (k - c) + 1

/-- Offset of flat position `k` inside its group of `counts`. -/
def partOffset : List ℕ → ℕ → ℕ
  | [], k => k
  | c :: rest, k => if k < c then k else partOffset rest (k - c)

/-- Reference definition following the spec's words, for the reassembly
guarantee: the embedding of word `k` of a sentence is the unweighted mean,
over the subword positions of the part containing `k` whose segment index is
`k`'s offset in that part, of the per-subword embeddings — themselves the
unweighted mean of the configured slice of hidden-state layers of that
part's padded row — taken one position later than the segment position (the
leading boundary token's embedding is discarded).  It depends only on the
sentence itself and on the batch-wide padded width `maxSub`. -/
def specWordEmbedding (m : WModel) (maxFormLen maxSub : ℕ)
    (sentence : List String) (k : ℕ) : Vec :=
  let t := tokenizeSentence m maxFormLen sentence
  let i := partIndex t.parts k
  let j := partOffset t.parts k
  let row := padTo maxSub 0 (t.subwords.getD i [])
  let subEmb := reduceMean (pySlice (m.layersOf row) (some m.layerStart) m.layerEnd)
  let posns := bucketPositions (t.segments.getD i []) j
  fun d => ((posns.map fun p => subEmb (p + 1) d).sum) / (posns.length : ℚ)

/-! ## Word groups of a tokenized sentence -/

/-- The raw (unwrapped) subword ids of a group of words. -/
def rawOf (m : WModel) (f : ℕ) (g : List String) : List ℕ :=
  g.flatMap (encodeWord m f)

/-- The segment-index row of a group of words: each word's subwords carry
the word's index within the group. -/
def segsOf (m : WModel) (f : ℕ) (g : List String) : List ℕ :=
  g.enum.flatMap fun iw => List.replicate (encodeWord m f iw.2).length iw.1

/-- Within one part, no word after the first was added past the subword
limit: for `0 < k < g.length`, the subwords accumulated before word `k`
plus word `k`'s subwords fit in `MAX_SUBWORDS_PER_SENTENCE`. -/
def Intra (m : WModel) (f : ℕ) (g : List String) : Prop :=
  ∀ k, 0 < k → k < g.length →
    (rawOf m f (g.take k)).length + (encodeWord m f (g.getD k "")).length
      ≤ MAX_SUBWORDS_PER_SENTENCE

/-- Every split point was forced: the first word of the next nonempty
suffix (the word whose addition closed part `i`) overflows part `i`. -/
def Boundary (m : WModel) (f : ℕ) (gs : List (List String)) : Prop :=
  ∀ i, i + 1 < gs.length →
    ∃ w t, gs.getD (i + 1) [] = w :: t ∧
      (rawOf m f (gs.getD i [])).length + (encodeWord m f w).length
        > MAX_SUBWORDS_PER_SENTENCE

/-! ## Basic lemmas -/

lemma getD_append_left {α : Type} (l l' : List α) (n : ℕ) (d : α)
    (h : n < l.length) : (l ++ l').getD n d = l.getD n d := by
  simp [List.getD_eq_getElem?_getD, List.getElem?_append_left h]

lemma getD_append_right {α : Type} (l l' : List α) (n : ℕ) (d : α)
    (h : l.length ≤ n) : (l ++ l').getD n d = l'.getD (n - l.length) d := by
  simp [List.getD_eq_getElem?_getD, List.getElem?_append_right h]

lemma getD_append_length {α : Type} (l : List α) (x d : α) :
    (l ++ [x]).getD l.length d = x := by
  rw [getD_append_right l [x] l.length d (le_refl _), Nat.sub_self]
  rfl

lemma rawOf_nil (m : WModel) (f : ℕ) : rawOf m f [] = [] := rfl

lemma segsOf_nil (m : WModel) (f : ℕ) : segsOf m f [] = [] := rfl

lemma rawOf_singleton (m : WModel) (f : ℕ) (w : String) :
    rawOf m f [w] = encodeWord m f w := by
  simp [rawOf]

lemma segsOf_singleton (m : WModel) (f : ℕ) (w : String) :
    segsOf m f [w] = List.replicate (encodeWord m f w).length 0 := by
  simp [segsOf, List.enum]

lemma rawOf_append_singleton (m : WModel) (f : ℕ) (g : List String) (w : String) :
    rawOf m f (g ++ [w]) = rawOf m f g ++ encodeWord m f w := by
  simp [rawOf]

lemma enum_append_singleton {α : Type} (g : List α) (w : α) :
    (g ++ [w]).enum = g.enum ++ [(g.length, w)] := by
  simp [List.enum, List.enumFrom_append]

lemma segsOf_append_singleton (m : WModel) (f : ℕ) (g : List String) (w : String) :
    segsOf m f (g ++ [w])
      = segsOf m f g ++ List.replicate (encodeWord m f w).length g.length := by
  simp [segsOf, enum_append_singleton]

lemma length_segsOf (m : WModel) (f : ℕ) : ∀ g : List String,
    (segsOf m f g).length = (rawOf m f g).length := by
  intro g
  induction g using List.reverseRecOn with
  | nil => rfl
  | append_singleton g w ih =>
      rw [segsOf_append_singleton, rawOf_append_singleton]
      simp [ih]

lemma mem_segsOf_lt (m : WModel) (f : ℕ) (g : List String) :
    ∀ v ∈ segsOf m f g, v < g.length := by
  intro v hv
  rcases List.mem_flatMap.mp hv with ⟨iw, hiw, hrep⟩
  rw [List.eq_of_mem_replicate hrep]
  exact List.fst_lt_of_mem_enum hiw

lemma length_wrapTokens (m : WModel) (ids : List ℕ) :
    (wrapTokens m ids).length = ids.length + 2 := by
  simp [wrapTokens]

/-! ## The tokenization loop invariant -/

/-- Invariant of the word loop of `compute_embeddings`: after processing
the words `ws`, the state is exactly the group decomposition of `ws` into
closed parts `ds` and the open part `cur`, with the no-overflow condition
inside every part and the forced-overflow condition at every split. -/
def TokInvar (m : WModel) (f : ℕ) (ws : List String) (st : PartialSent) : Prop :=
  ∃ ds cur, ws = (ds ++ [cur]).flatten ∧
    st.doneParts = ds.map List.length ∧
    st.doneSubwords = ds.map (fun g => wrapTokens m (rawOf m f g)) ∧
    st.doneSegments = ds.map (segsOf m f) ∧
    st.curPart = cur.length ∧
    st.curSubwords = rawOf m f cur ∧
    st.curSegments = segsOf m f cur ∧
    (∀ g ∈ ds ++ [cur], Intra m f g) ∧
    Boundary m f (ds ++ [cur])

lemma tokInvar_init (m : WModel) (f : ℕ) : TokInvar m f [] initSent := by
  refine ⟨[], [], ?_, rfl, rfl, rfl, rfl, rfl, rfl, ?_, ?_⟩
  · rfl
  · intro g hg
    simp only [List.nil_append, List.mem_singleton] at hg
    subst hg
    intro k hk hk'
    simp at hk'
  · intro i hi
    simp at hi

lemma tokInvar_step (m : WModel) (f : ℕ) (ws : List String) (st : PartialSent)
    (hI : TokInvar m f ws st) (w : String) :
    TokInvar m f (ws ++ [w]) (processWord m f st w) := by
  obtain ⟨ds, cur, hws, hdp, hdw, hdg, hcp, hcw, hcg, hintra, hbound⟩ := hI
  unfold processWord
  dsimp only
  by_cases hov :
      st.curSubwords.length + (encodeWord m f w).length > MAX_SUBWORDS_PER_SENTENCE
  · -- overflow: close the current part, the word opens a fresh one
    rw [if_pos hov]
    refine ⟨ds ++ [cur], [w], ?_, ?_, ?_, ?_, ?_, ?_, ?_, ?_, ?_⟩
    · rw [List.flatten_append, ← hws]
      simp
    · simp [hdp, hcp]
    · simp [hdw, hcw]
    · simp [hdg, hcg]
    · simp
    · simp [rawOf_singleton]
    · simp [segsOf_singleton]
    · intro g hg
      rcases List.mem_append.mp hg with h | h
      · exact hintra g h
      · rw [List.mem_singleton.mp h]
        intro k hk hk'
        simp at hk'
        omega
    · intro i hi
      simp only [List.length_append, List.length_singleton] at hi
      by_cases hlt : i + 1 < (ds ++ [cur]).length
      · obtain ⟨w', t, hgt, hcond⟩ := hbound i hlt
        refine ⟨w', t, ?_, ?_⟩
        · rw [getD_append_left _ _ _ _ hlt, hgt]
        · rw [getD_append_left _ _ _ _ (by omega : i < (ds ++ [cur]).length)]
          exact hcond
      · have hieq : i + 1 = (ds ++ [cur]).length := by
          simp only [List.length_append, List.length_singleton] at hlt ⊢
          omega
        refine ⟨w, [], ?_, ?_⟩
        · rw [hieq]
          exact getD_append_length _ _ _
        · have hi' : i = ds.length := by
            simp only [List.length_append, List.length_singleton] at hieq
            omega
          rw [getD_append_left _ _ _ _ (hieq ▸ Nat.lt_succ_self i)]
          have : (ds ++ [cur]).getD i [] = cur := by
            rw [hi']
            exact getD_append_length _ _ _
          rw [this]
          rw [hcw] at hov
          exact hov
  · -- no overflow: the word joins the current part
    rw [if_neg hov]
    refine ⟨ds, cur ++ [w], ?_, hdp, hdw, hdg, ?_, ?_, ?_, ?_, ?_⟩
    · simp [hws, List.flatten_append]
    · simp [hcp]
    · rw [hcw, rawOf_append_singleton]
    · rw [hcg, hcp, segsOf_append_singleton]
    · intro g hg
      rcases List.mem_append.mp hg with h | h
      · exact hintra g (List.mem_append_left _ h)
      · rw [List.mem_singleton.mp h]
        intro k hk hk'
        simp only [List.length_append, List.length_singleton] at hk'
        by_cases hkc : k < cur.length
        · have ht : (cur ++ [w]).take k = cur.take k := by
            rw [List.take_append_eq_append_take,
              Nat.sub_eq_zero_of_le (le_of_lt hkc), List.take_zero,
              List.append_nil]
          have hd : (cur ++ [w]).getD k "" = cur.getD k "" :=
            getD_append_left _ _ _ _ hkc
          rw [ht, hd]
          exact hintra cur (List.mem_append_right ds (List.mem_singleton_self cur))
            k hk hkc
        · have hkeq : k = cur.length := by omega
          subst hkeq
          rw [List.take_left, getD_append_length]
          rw [hcw] at hov
          omega
    · intro i hi
      simp only [List.length_append, List.length_singleton] at hi
      have hi' : i + 1 < (ds ++ [cur]).length := by
        simp only [List.length_append, List.length_singleton]
        omega
      obtain ⟨w', t, hgt, hcond⟩ := hbound i hi'
      simp only [List.length_append, List.length_singleton] at hi'
      by_cases hlt : i + 1 < ds.length
      · refine ⟨w', t, ?_, ?_⟩
        · rw [getD_append_left _ _ _ _ hlt]
          rw [getD_append_left _ _ _ _ hlt] at hgt
          exact hgt
        · rw [getD_append_left _ _ _ _ (by omega : i < ds.length)]
          rw [getD_append_left _ _ _ _ (by omega : i < ds.length)] at hcond
          exact hcond
      · have hieq : i + 1 = ds.length := by omega
        have hcur : (ds ++ [cur]).getD (i + 1) [] = cur := by
          rw [hieq]; exact getD_append_length _ _ _
        have hcur' : (ds ++ [cur ++ [w]]).getD (i + 1) [] = cur ++ [w] := by
          rw [hieq]; exact getD_append_length _ _ _
        rw [hcur] at hgt
        refine ⟨w', t ++ [w], ?_, ?_⟩
        · rw [hcur', hgt]
          rfl
        · rw [getD_append_left _ _ _ _ (by omega : i < ds.length)]
          rw [getD_append_left _ _ _ _ (by omega : i < ds.length)] at hcond
          exact hcond

lemma tokInvar_foldl (m : WModel) (f : ℕ) : ∀ (sentence ws : List String)
    (st : PartialSent), TokInvar m f ws st →
    TokInvar m f (ws ++ sentence) (sentence.foldl (processWord m f) st) := by
  intro sentence
  induction sentence with
  | nil => intro ws st h; simpa using h
  | cons w rest ih =>
      intro ws st h
      have h' := tokInvar_step m f ws st h w
      have := ih (ws ++ [w]) (processWord m f st w) h'
      simpa [List.foldl_cons] using this

/-- Structure theorem for `tokenizeSentence`: the sentence splits into a
nonempty list of contiguous word groups; the recorded `parts` are the group
sizes, each `subwords` entry is the group's subwords wrapped in boundary
tokens, each `segments` entry numbers the group's subwords by word; words
inside a group never overflow the limit, and each split was forced by an
overflow. -/
theorem tokenizeSentence_groups (m : WModel) (f : ℕ) (sentence : List String) :
    ∃ gs : List (List String), gs ≠ [] ∧ sentence = gs.flatten ∧
      (tokenizeSentence m f sentence).parts = gs.map List.length ∧
      (tokenizeSentence m f sentence).subwords
        = gs.map (fun g => wrapTokens m (rawOf m f g)) ∧
      (tokenizeSentence m f sentence).segments = gs.map (segsOf m f) ∧
      (∀ g ∈ gs, Intra m f g) ∧
      Boundary m f gs := by
  have h := tokInvar_foldl m f sentence [] initSent (tokInvar_init m f)
  simp only [List.nil_append] at h
  obtain ⟨ds, cur, hws, hdp, hdw, hdg, hcp, hcw, hcg, hintra, hbound⟩ := h
  refine ⟨ds ++ [cur], by simp, hws, ?_, ?_, ?_, hintra, hbound⟩
  · simp [tokenizeSentence, hdp, hcp]
  · simp [tokenizeSentence, hdw, hcw]
  · simp [tokenizeSentence, hdg, hcg]

/-! ## Flat-position decomposition -/

lemma le_sum_of_mem_nat {l : List ℕ} {a : ℕ} (h : a ∈ l) : a ≤ l.sum := by
  induction l with
  | nil => cases h
  | cons x xs ih =>
      rcases List.mem_cons.mp h with h | h
      · subst h; simp
      · simp only [List.sum_cons]
        exact le_add_left (ih h)

lemma partIndex_spec : ∀ (counts : List ℕ) (k : ℕ), k < counts.sum →
    partIndex counts k < counts.length ∧
    partOffset counts k < counts.getD (partIndex counts k) 0 ∧
    (counts.take (partIndex counts k)).sum + partOffset counts k = k := by
  intro counts
  induction counts with
  | nil => intro k hk; simp at hk
  | cons c rest ih =>
      intro k hk
      by_cases h : k < c
      · simp [partIndex, partOffset, h]
      · simp only [List.sum_cons] at hk
        obtain ⟨h1, h2, h3⟩ := ih (k - c) (by omega)
        simp only [partIndex, partOffset, if_neg h, List.length_cons,
          List.getD_cons_succ, List.take_succ_cons, List.sum_cons]
        exact ⟨by omega, h2, by omega⟩

lemma flatten_getD {α : Type} (d : α) : ∀ (xss : List (List α)) (k : ℕ),
    k < (xss.map List.length).sum →
    xss.flatten.getD k d
      = (xss.getD (partIndex (xss.map List.length) k) []).getD
          (partOffset (xss.map List.length) k) d := by
  intro xss
  induction xss with
  | nil => intro k hk; simp at hk
  | cons x rest ih =>
      intro k hk
      by_cases h : k < x.length
      · simp only [List.flatten_cons, List.map_cons, partIndex, partOffset,
          if_pos h, List.getD_cons_zero]
        exact getD_append_left _ _ _ _ h
      · simp only [List.map_cons, List.sum_cons] at hk
        simp only [List.flatten_cons, List.map_cons, partIndex, partOffset,
          if_neg h, List.getD_cons_succ]
        rw [getD_append_right _ _ _ _ (by omega)]
        exact ih (k - x.length) (by omega)

/-! ## Padding and indexing lemmas -/

lemma getD_map_of_lt {α β : Type} (fn : α → β) (l : List α) (n : ℕ)
    (d : β) (d' : α) (h : n < l.length) :
    (l.map fn).getD n d = fn (l.getD n d') := by
  rw [List.getD_eq_getElem?_getD, List.getD_eq_getElem?_getD,
    List.getElem?_eq_getElem (by simpa using h), List.getElem?_eq_getElem h]
  simp

lemma padTo_length {n pad : ℕ} {row : List ℕ} (h : row.length ≤ n) :
    (padTo n pad row).length = n := by
  simp [padTo]
  omega

lemma padTo_getD_left {n pad : ℕ} {row : List ℕ} {p : ℕ} (d : ℕ)
    (h : p < row.length) : (padTo n pad row).getD p d = row.getD p d :=
  getD_append_left _ _ _ _ h

lemma padTo_getD_pad {n pad : ℕ} {row : List ℕ} {p : ℕ} (d : ℕ)
    (h1 : row.length ≤ p) (h2 : p < n) : (padTo n pad row).getD p d = pad := by
  unfold padTo
  rw [getD_append_right _ _ _ _ h1, List.getD_eq_getElem?_getD,
    List.getElem?_replicate]
  rw [if_pos (by omega)]
  rfl

/-! ## Corollaries of the tokenization structure theorem -/

lemma tokenizeSentence_parts_sum (m : WModel) (f : ℕ) (sentence : List String) :
    (tokenizeSentence m f sentence).parts.sum = sentence.length := by
  obtain ⟨gs, -, hfl, hp, -, -, -, -⟩ := tokenizeSentence_groups m f sentence
  rw [hp, hfl, ← List.length_flatten]

lemma tokenizeSentence_lengths (m : WModel) (f : ℕ) (sentence : List String) :
    (tokenizeSentence m f sentence).subwords.length
        = (tokenizeSentence m f sentence).parts.length ∧
      (tokenizeSentence m f sentence).segments.length
        = (tokenizeSentence m f sentence).parts.length := by
  obtain ⟨gs, -, -, hp, hw, hg, -, -⟩ := tokenizeSentence_groups m f sentence
  rw [hp, hw, hg]
  simp

/-! ## Basic lemmas (continued) -/

lemma pyMax_nil : pyMax [] = none := rfl

lemma pyMax_isSome_of_ne_nil {l : List ℕ} (h : l ≠ []) : ∃ v, pyMax l = some v := by
  cases l with
  | nil => exact absurd rfl h
  | cons x xs => exact ⟨xs.foldl max x, rfl⟩

lemma le_foldl_max_init : ∀ (l : List ℕ) (a : ℕ), a ≤ l.foldl max a := by
  intro l
  induction l with
  | nil => intro a; exact le_refl a
  | cons x xs ih =>
      intro a
      calc a ≤ max a x := le_max_left a x
        _ ≤ xs.foldl max (max a x) := ih (max a x)

lemma le_foldl_max_mem : ∀ (l : List ℕ) (a x : ℕ), x ∈ l → x ≤ l.foldl max a := by
  intro l
  induction l with
  | nil => intro a x hx; cases hx
  | cons y ys ih =>
      intro a x hx
      rcases List.mem_cons.mp hx with h | h
      · subst h
        calc x ≤ max a x := le_max_right a x
          _ ≤ ys.foldl max (max a x) := le_foldl_max_init ys (max a x)
      · exact ih (max a y) x h

lemma foldl_max_le : ∀ (l : List ℕ) (a m : ℕ), a ≤ m → (∀ x ∈ l, x ≤ m) →
    l.foldl max a ≤ m := by
  intro l
  induction l with
  | nil => intro a m ha _; exact ha
  | cons x xs ih =>
      intro a m ha hall
      exact ih (max a x) m (max_le ha (hall x (List.mem_cons_self x xs)))
        (fun y hy => hall y (List.mem_cons_of_mem x hy))

lemma le_pyMax {l : List ℕ} {v x : ℕ} (h : pyMax l = some v) (hx : x ∈ l) :
    x ≤ v := by
  cases l with
  | nil => cases hx
  | cons y ys =>
      simp only [pyMax, Option.some.injEq] at h
      subst h
      rcases List.mem_cons.mp hx with h | h
      · subst h; exact le_foldl_max_init ys x
      · exact le_foldl_max_mem ys y x h

lemma tokenizeSentence_subwords_ne_nil (m : WModel) (f : ℕ) (s : List String) :
    (tokenizeSentence m f s).subwords ≠ [] := by
  simp [tokenizeSentence]

lemma batchSubwords_ne_nil (m : WModel) (f : ℕ) {sentences : List (List String)}
    (h : sentences ≠ []) : batchSubwords m f sentences ≠ [] := by
  cases sentences with
  | nil => exact absurd rfl h
  | cons s ss =>
      simp only [batchSubwords, tokenizedBatch, List.map_cons, List.flatMap_cons,
        ne_eq, List.append_eq_nil]
      intro hc
      exact tokenizeSentence_subwords_ne_nil m f s hc.1

/-! ## Loader lemmas (C9) -/

lemma isTokenLine_nil : isTokenLine [] = false := rfl

lemma loadConlluGo_error_iff : ∀ (lines : List ConlluLine)
    (sents : List (List (List Char))) (inSent : Bool),
    loadConlluGo lines sents inSent = .error .assertionError ↔
      ∃ l ∈ lines, isTokenLine l = true ∧ (splitTab l).length ≠ 10 := by
  intro lines
  induction lines with
  | nil => intro sents inSent; simp [loadConlluGo]
  | cons line rest ih =>
      intro sents inSent
      unfold loadConlluGo
      by_cases h1 : line.isEmpty
      · rw [if_pos h1, ih]
        constructor
        · rintro ⟨l, hl, hb⟩; exact ⟨l, List.mem_cons_of_mem _ hl, hb⟩
        · rintro ⟨l, hl, ht, hc⟩
          rcases List.mem_cons.mp hl with h | h
          · subst h
            rw [List.isEmpty_iff.mp h1] at ht
            exact absurd ht (by simp [isTokenLine_nil])
          · exact ⟨l, h, ht, hc⟩
      · rw [if_neg h1]
        by_cases h2 : isTokenLine line
        · rw [if_pos h2]
          by_cases h3 : (splitTab line).length = 10
          · rw [if_pos h3, ih]
            constructor
            · rintro ⟨l, hl, hb⟩; exact ⟨l, List.mem_cons_of_mem _ hl, hb⟩
            · rintro ⟨l, hl, ht, hc⟩
              rcases List.mem_cons.mp hl with h | h
              · subst h; exact absurd h3 hc
              · exact ⟨l, h, ht, hc⟩
          · rw [if_neg h3]
            simp only [true_iff]
            exact ⟨line, List.mem_cons_self _ _, h2, h3⟩
        · rw [if_neg h2, ih]
          constructor
          · rintro ⟨l, hl, hb⟩; exact ⟨l, List.mem_cons_of_mem _ hl, hb⟩
          · rintro ⟨l, hl, ht, hc⟩
            rcases List.mem_cons.mp hl with h | h
            · subst h; exact absurd ht (by simpa using h2)
            · exact ⟨l, h, ht, hc⟩

/-! ## Concrete instances for witnesses -/

/-- A tiny concrete model: every word is one subword, one hidden layer. -/
def trivialModel : WModel :=
  ⟨fun _ => [3], 1, 2, fun _ => [fun _ _ => 0], -4, none⟩

/-- A registry holding only `trivialModel` under the name `"m"`. -/
def trivialRegistry : List (String × WModel) := [("m", trivialModel)]

/-! ## Claim theorems: error handling and persistence basics -/

/-- C9: loading the CoNLL-U file fails with the assertion failure exactly
when some line matching the token-line pattern (`^[0-9]*\t`) does not split
into exactly 10 tab-separated columns; in particular a file whose token
lines all have 10 columns never triggers it, and any token line with a
different column count makes the run abort. -/
theorem C9_token_line_column_assert (lines : List ConlluLine) :
    loadConllu lines = .error .assertionError ↔
      ∃ l ∈ lines, isTokenLine l = true ∧ (splitTab l).length ≠ 10 :=
  loadConlluGo_error_iff lines [] false

/-- C8: calling `WEmbeddings.compute_embeddings` with a model name that is
not a key of the constructed registry emits the stderr warning and then
fails with the lookup (`KeyError`) error; nothing is substituted and no
result is produced. -/
theorem C8_unknown_model_warns_then_fails (models : List (String × WModel))
    (name : String) (maxFormLen : ℕ) (sentences : List (List String))
    (h : models.lookup name = none) :
    computeEmbeddings models name maxFormLen sentences
      = (["No such WEmbeddings model " ++ name], .error .keyError) := by
  unfold computeEmbeddings
  rw [h]

theorem C8_witness :
    ([] : List (String × WModel)).lookup "x" = none ∧
      computeEmbeddings [] "x" 64 [["a"]]
        = (["No such WEmbeddings model " ++ "x"], .error .keyError) :=
  ⟨rfl, C8_unknown_model_warns_then_fails [] "x" 64 [["a"]] rfl⟩

/-- C10: with a registered model, `compute_embeddings` on an empty sentence
list does not return an empty result: it fails with the `ValueError` raised
by `max` over the empty generator, before any tensor is built; and every
call with a nonempty sentence list passes that point and returns a result. -/
theorem C10_empty_batch_value_error (models : List (String × WModel))
    (name : String) (m : WModel) (maxFormLen : ℕ)
    (sentences : List (List String)) (h : models.lookup name = some m) :
    (sentences = [] →
        (computeEmbeddings models name maxFormLen sentences).2
          = .error .valueError) ∧
      (sentences ≠ [] →
        ∃ out, (computeEmbeddings models name maxFormLen sentences).2 = .ok out) := by
  constructor
  · intro he
    subst he
    unfold computeEmbeddings
    rw [h]
    rfl
  · intro hne
    unfold computeEmbeddings
    rw [h]
    simp only
    unfold computeEmbeddingsBody
    obtain ⟨v1, hv1⟩ : ∃ v, pyMax (sentences.map List.length) = some v :=
      pyMax_isSome_of_ne_nil (by simpa using hne)
    obtain ⟨v2, hv2⟩ :
        ∃ v, pyMax ((batchSubwords m maxFormLen sentences).map List.length)
          = some v :=
      pyMax_isSome_of_ne_nil (by simpa using batchSubwords_ne_nil m maxFormLen hne)
    rw [hv1, hv2]
    exact ⟨_, rfl⟩

theorem C10_witness :
    trivialRegistry.lookup "m" = some trivialModel ∧
      (computeEmbeddings trivialRegistry "m" 64 []).2 = .error .valueError :=
  ⟨rfl,
    (C10_empty_batch_value_error trivialRegistry "m" trivialModel 64 [] rfl).1 rfl⟩

/-- C7 counterexample: the archive written by the batch tool is opened with
`ZIP_STORED`, so even for a concrete run its entries are not stored in
compressed form — the claim "its entries are stored in compressed form" is
false. -/
theorem C7_counterexample :
    ((writeArchive (fun _ => []) ⟨id⟩ [["a"]] 1).compression.isCompressed = true)
      ↔ False := by
  simp [writeArchive, CompressionMethod.isCompressed]

/-- C7 (amended): the output archive written by the batch tool is a ZIP
container opened with `ZIP_STORED`: its entries are stored uncompressed. -/
theorem C7_archive_stored_uncompressed
    (embed : List (List String) → List (List Vec)) (dt : Dtype)
    (sentences : List (List String)) (batchSize : ℕ) :
    (writeArchive embed dt sentences batchSize).compression
        = CompressionMethod.stored ∧
      (writeArchive embed dt sentences batchSize).compression.isCompressed
        = false :=
  ⟨rfl, rfl⟩

/-! ## Archive writer lemmas (C4) -/

lemma pyRange3_zero (bs : ℕ) (hbs : 0 < bs) : pyRange3 0 bs = [] := by
  unfold pyRange3
  rw [Nat.div_eq_of_lt (by omega)]
  rfl

lemma pyRange3_pos (L bs : ℕ) (hbs : 0 < bs) (hL : 0 < L) :
    pyRange3 L bs = 0 :: (pyRange3 (L - bs) bs).map (· + bs) := by
  unfold pyRange3
  have hc : (L + bs - 1) / bs = (L - bs + bs - 1) / bs + 1 := by
    rcases le_or_lt L bs with h | h
    · have h0 : L - bs = 0 := by omega
      rw [h0]
      have h1 : (0 + bs - 1) / bs = 0 := Nat.div_eq_of_lt (by omega)
      rw [h1]
      exact Nat.div_eq_of_lt_le (by omega) (by omega)
    · have h2 : L - bs + bs = L := by omega
      have h3 : L + bs - 1 = (L - 1) + bs := by omega
      rw [h2, h3, Nat.add_div_right _ hbs]
  rw [hc, List.range_succ_eq_map, List.map_cons, List.map_map, List.map_map]
  congr 1
  · simp
  · apply List.map_congr_left
    intro x _
    simp only [Function.comp_apply, Nat.succ_eq_add_one]
    ring

lemma enumFrom_map_getD {α β : Type} (fn : ℕ → α → β) (d : α) :
    ∀ (l : List α) (s : ℕ),
      (l.enumFrom s).map (fun je => fn je.1 je.2)
        = (List.range l.length).map fun j => fn (s + j) (l.getD j d) := by
  intro l
  induction l with
  | nil => intro s; rfl
  | cons a t ih =>
      intro s
      rw [List.enumFrom_cons, List.map_cons, List.length_cons,
        List.range_succ_eq_map, List.map_cons]
      congr 1
      rw [ih (s + 1), List.map_map]
      apply List.map_congr_left
      intro j _
      simp only [Function.comp_apply, Nat.succ_eq_add_one, List.getD_cons_succ]
      have h : s + 1 + j = s + (j + 1) := by omega
      rw [h]

lemma enum_map_getD {α β : Type} (fn : ℕ → α → β) (d : α) (l : List α) :
    l.enum.map (fun je => fn je.1 je.2)
      = (List.range l.length).map fun j => fn j (l.getD j d) := by
  have h := enumFrom_map_getD fn d l 0
  simpa using h

lemma pySliceList_shift {α : Type} (xs : List α) (bs i : ℕ) :
    pySliceList xs (i + bs) (i + bs + bs) = pySliceList (xs.drop bs) i (i + bs) := by
  unfold pySliceList
  rw [List.take_drop, List.drop_drop]
  have e1 : bs + (i + bs) = i + bs + bs := by omega
  have e2 : bs + i = i + bs := by omega
  rw [e1, e2]

lemma flatMap_congr_left {α β : Type} {l : List α} {f g : α → List β}
    (h : ∀ a ∈ l, f a = g a) : l.flatMap f = l.flatMap g := by
  unfold List.flatMap
  exact congrArg List.flatten (List.map_congr_left h)

lemma flatMap_chunks {β : Type} (embed : List (List String) → List (List Vec))
    (hlen : ∀ b, (embed b).length = b.length) (bs : ℕ) (hbs : 0 < bs)
    (fn : ℕ → List Vec → β) :
    ∀ (n : ℕ) (xs : List (List String)) (o : ℕ), xs.length ≤ n →
      ((pyRange3 xs.length bs).flatMap fun i =>
          (embed (pySliceList xs i (i + bs))).enum.map fun je =>
            fn (o + i + je.1) je.2)
        = (List.range xs.length).map fun k =>
            fn (o + k)
              ((embed (pySliceList xs (k / bs * bs) (k / bs * bs + bs))).getD
                (k % bs) []) := by
  intro n
  induction n with
  | zero =>
      intro xs o hxs
      have h0 : xs.length = 0 := by omega
      rw [h0, pyRange3_zero bs hbs]
      rfl
  | succ n ih =>
      intro xs o hxs
      rcases Nat.eq_zero_or_pos xs.length with hL | hL
      · rw [hL, pyRange3_zero bs hbs]
        rfl
      · rw [pyRange3_pos xs.length bs hbs hL, List.flatMap_cons, List.flatMap_map]
        have hhead :
            ((embed (pySliceList xs 0 (0 + bs))).enum.map fun je =>
                fn (o + 0 + je.1) je.2)
              = (List.range (min bs xs.length)).map fun j =>
                  fn (o + 0 + j) ((embed (pySliceList xs 0 (0 + bs))).getD j []) := by
          rw [enum_map_getD (fun j x => fn (o + 0 + j) x) []]
          have hl : (embed (pySliceList xs 0 (0 + bs))).length = min bs xs.length := by
            rw [hlen]
            unfold pySliceList
            rw [List.drop_zero, List.length_take]
            omega
          rw [hl]
        have htail :
            ((pyRange3 (xs.length - bs) bs).flatMap fun i =>
                (embed (pySliceList xs (i + bs) (i + bs + bs))).enum.map fun je =>
                  fn (o + (i + bs) + je.1) je.2)
              = (List.range (xs.length - bs)).map fun k =>
                  fn (o + bs + k)
                    ((embed (pySliceList (xs.drop bs) (k / bs * bs)
                        (k / bs * bs + bs))).getD (k % bs) []) := by
          have hrec :
              ((pyRange3 (xs.length - bs) bs).flatMap fun i =>
                  (embed (pySliceList (xs.drop bs) i (i + bs))).enum.map fun je =>
                    fn (o + bs + i + je.1) je.2)
                = (List.range (xs.length - bs)).map fun k =>
                    fn (o + bs + k)
                      ((embed (pySliceList (xs.drop bs) (k / bs * bs)
                          (k / bs * bs + bs))).getD (k % bs) []) := by
            have hd : (xs.drop bs).length = xs.length - bs := by
              rw [List.length_drop]
            have hle : (xs.drop bs).length ≤ n := by omega
            have h := ih (xs.drop bs) (o + bs) hle
            rw [hd] at h
            exact h
          rw [← hrec]
          apply flatMap_congr_left
          intro i _
          rw [pySliceList_shift xs bs i]
          apply List.map_congr_left
          intro je _
          have h : o + (i + bs) + je.1 = o + bs + i + je.1 := by omega
          rw [h]
        rw [hhead, htail]
        rcases le_or_lt xs.length bs with hLle | hLgt
        · have hmin : min bs xs.length = xs.length := by omega
          have hz : xs.length - bs = 0 := by omega
          rw [hmin, hz]
          simp only [List.range_zero, List.map_nil, List.append_nil]
          apply List.map_congr_left
          intro j hj
          have hj' : j < xs.length := List.mem_range.mp hj
          have e1 : j / bs = 0 := Nat.div_eq_of_lt (by omega)
          have e2 : j % bs = j := Nat.mod_eq_of_lt (by omega)
          have e3 : o + 0 + j = o + j := by omega
          rw [e1, e2, e3, Nat.zero_mul]
        · have hmin : min bs xs.length = bs := by omega
          rw [hmin]
          conv_rhs => rw [show xs.length = bs + (xs.length - bs) by omega]
          rw [List.range_add, List.map_append, List.map_map]
          congr 1
          · apply List.map_congr_left
            intro j hj
            have hj' : j < bs := List.mem_range.mp hj
            have e1 : j / bs = 0 := Nat.div_eq_of_lt hj'
            have e2 : j % bs = j := Nat.mod_eq_of_lt hj'
            have e3 : o + 0 + j = o + j := by omega
            rw [e1, e2, e3, Nat.zero_mul]
          · apply List.map_congr_left
            intro k _
            simp only [Function.comp_apply]
            rw [Nat.add_comm bs k, Nat.add_div_right k hbs,
              Nat.add_mod_right, Nat.succ_mul,
              pySliceList_shift xs bs (k / bs * bs)]
            have e : o + (k + bs) = o + bs + k := by omega
            rw [e]

/-- C4: for an input of `N` sentences, the finished archive holds exactly
`N` entries, one per sentence, in input order, entry `k` keyed `"arr_k"`;
each entry's data is the sentence's embedding — the `k % batch_size`-th
result of `compute_embeddings` on the batch slice containing sentence `k` —
downcast with `astype` to the requested dtype at the moment it is
written. -/
theorem C4_one_entry_per_sentence_in_order
    (embed : List (List String) → List (List Vec)) (dt : Dtype)
    (sentences : List (List String)) (bs : ℕ) (hbs : 0 < bs)
    (hlen : ∀ b, (embed b).length = b.length) :
    (writeArchive embed dt sentences bs).entries
        = (List.range sentences.length).map (fun k =>
            { key := "arr_" ++ toString k,
              data := castArr dt
                ((embed (pySliceList sentences (k / bs * bs)
                    (k / bs * bs + bs))).getD (k % bs) []) }) ∧
      (writeArchive embed dt sentences bs).entries.length
        = sentences.length := by
  have h := flatMap_chunks embed hlen bs hbs
    (fun k e => ({ key := "arr_" ++ toString k, data := castArr dt e } : ArchiveEntry))
    sentences.length sentences 0 (le_refl _)
  simp only [Nat.zero_add] at h
  have e1 : (writeArchive embed dt sentences bs).entries
      = (List.range sentences.length).map (fun k =>
          { key := "arr_" ++ toString k,
            data := castArr dt
              ((embed (pySliceList sentences (k / bs * bs)
                  (k / bs * bs + bs))).getD (k % bs) []) }) := h
  refine ⟨e1, ?_⟩
  rw [e1, List.length_map, List.length_range]

/-- C4 witness data: an embedder returning one zero row per sentence. -/
def constEmbed : List (List String) → List (List Vec) :=
  fun b => b.map fun _ => [vzero]

theorem C4_witness :
    ((0 : ℕ) < 2 ∧ ∀ b, (constEmbed b).length = b.length) ∧
      (writeArchive constEmbed ⟨id⟩ [["a"], ["b"], ["c"]] 2).entries.length = 3 := by
  have hlen : ∀ b, (constEmbed b).length = b.length := by
    intro b
    simp [constEmbed]
  refine ⟨⟨by omega, hlen⟩, ?_⟩
  have h := (C4_one_entry_per_sentence_in_order constEmbed ⟨id⟩
    [["a"], ["b"], ["c"]] 2 (by omega) hlen).2
  simpa using h

/-! ## Graph lemmas -/

lemma getD_zip {α β : Type} (l1 : List α) (l2 : List β) (r : ℕ) (d1 : α)
    (d2 : β) (h1 : r < l1.length) (h2 : r < l2.length) :
    (l1.zip l2).getD r (d1, d2) = (l1.getD r d1, l2.getD r d2) := by
  have hz : (l1.zip l2)[r]? = some (l1.getD r d1, l2.getD r d2) := by
    apply List.getElem?_zip_eq_some.mpr
    constructor
    · simp [List.getD_eq_getElem?_getD, List.getElem?_eq_getElem h1]
    · simp [List.getD_eq_getElem?_getD, List.getElem?_eq_getElem h2]
  rw [List.getD_eq_getElem?_getD, hz]
  rfl

lemma getD_dropLast {α : Type} (l : List α) (i : ℕ) (d : α)
    (h : i < l.length - 1) : l.dropLast.getD i d = l.getD i d := by
  have h1 : i < l.dropLast.length := by
    rw [List.length_dropLast]; exact h
  have h2 : i < l.length := by omega
  rw [List.getD_eq_getElem?_getD, List.getD_eq_getElem?_getD,
    List.getElem?_eq_getElem h1, List.getElem?_eq_getElem h2]
  simp

lemma range_getD (n w : ℕ) (h : w < n) : (List.range n).getD w 0 = w := by
  rw [List.getD_eq_getElem?_getD, List.getElem?_eq_getElem (by simpa using h)]
  simp

lemma segmentMean_length (data : ℕ → Vec) (segIds : List ℕ)
    (h : segIds ≠ []) :
    (segmentMean data segIds).length = segIds.foldl max 0 + 1 := by
  unfold segmentMean
  rw [if_neg (by simpa using h)]
  simp

lemma segmentMean_getD (data : ℕ → Vec) (segIds : List ℕ) (w : ℕ)
    (h : segIds ≠ []) (hw : w < segIds.foldl max 0 + 1) (d : ℕ) :
    (segmentMean data segIds).getD w vzero d
      = ((bucketPositions segIds w).map fun p => data p d).sum
          / ((bucketPositions segIds w).length : ℚ) := by
  unfold segmentMean
  rw [if_neg (by simpa using h)]
  rw [getD_map_of_lt _ _ _ vzero 0 (by simpa using hw), range_getD _ _ hw]

lemma graphWordEmbeddings_getD (m : WModel) (npSub npSeg : List (List ℕ))
    (r : ℕ) (h1 : r < npSub.length) (h2 : r < npSeg.length) :
    (graphWordEmbeddings m npSub npSeg).getD r []
      = (segmentMean
          (fun p => reduceMean
            (pySlice (m.layersOf (npSub.getD r [])) (some m.layerStart)
              m.layerEnd) (p + 1))
          (npSeg.getD r [])).dropLast := by
  unfold graphWordEmbeddings
  have hzlen : r < (npSub.zip npSeg).length := by
    rw [List.length_zip]
    omega
  rw [getD_map_of_lt _ _ _ [] ([], []) hzlen, getD_zip _ _ _ _ _ h1 h2]

lemma pySlice_contiguous {α : Type} (xs : List α) (st sp : Option Int) :
    ∃ a b, pySlice xs st sp = (xs.drop a).take (b - a) := by
  unfold pySlice
  dsimp only
  refine ⟨match st with | none => 0 | some i => pyClampIdx xs.length i,
    max (match st with | none => 0 | some i => pyClampIdx xs.length i)
      (match sp with | none => xs.length | some i => pyClampIdx xs.length i),
    ?_⟩
  generalize (match st with | none => 0 | some i => pyClampIdx xs.length i) = s
  generalize (match sp with
    | none => xs.length | some i => pyClampIdx xs.length i) = e
  by_cases hse : s ≤ e
  · rw [max_eq_right hse, List.take_drop]
    congr 2
    omega
  · rw [max_eq_left (le_of_lt (by omega))]
    have h1 : (xs.take e).drop s = [] := by
      apply List.drop_eq_nil_of_le
      rw [List.length_take]
      omega
    have h2 : (xs.drop s).take (s - s) = [] := by
      rw [Nat.sub_self, List.take_zero]
    rw [h1, h2]

lemma batchSegments_length_eq (m : WModel) (f : ℕ)
    (sentences : List (List String)) :
    (batchSegments m f sentences).length = (batchSubwords m f sentences).length := by
  unfold batchSegments batchSubwords tokenizedBatch
  rw [List.length_flatMap, List.length_flatMap, List.map_map, List.map_map]
  congr 1
  apply List.map_congr_left
  intro s _
  simp only [Function.comp_apply]
  have h := tokenizeSentence_lengths m f s
  omega

lemma mem_batchSegments_iff (m : WModel) (f : ℕ)
    (sentences : List (List String)) (row : List ℕ) :
    row ∈ batchSegments m f sentences ↔
      ∃ s ∈ sentences, row ∈ (tokenizeSentence m f s).segments := by
  simp [batchSegments, tokenizedBatch]

lemma seg_row_values_lt (m : WModel) (f : ℕ) (s : List String) (row : List ℕ)
    (hrow : row ∈ (tokenizeSentence m f s).segments) :
    ∀ v ∈ row, v < s.length := by
  obtain ⟨gs, -, hfl, -, -, hg, -, -⟩ := tokenizeSentence_groups m f s
  rw [hg] at hrow
  obtain ⟨g, hgmem, hgeq⟩ := List.mem_map.mp hrow
  intro v hv
  rw [← hgeq] at hv
  have h1 : v < g.length := mem_segsOf_lt m f g v hv
  have h2 : g.length ≤ s.length := by
    rw [hfl, List.length_flatten]
    exact le_sum_of_mem_nat (List.mem_map_of_mem List.length hgmem)
  omega

/-! ## Reassembly and flat-row indexing lemmas (C1) -/

lemma getD_take {α : Type} (l : List α) (c j : ℕ) (d : α) (hj : j < c) :
    (l.take c).getD j d = l.getD j d := by
  rcases lt_or_le j l.length with h | h
  · have h1 : j < (l.take c).length := by
      rw [List.length_take]
      omega
    rw [List.getD_eq_getElem?_getD, List.getD_eq_getElem?_getD,
      List.getElem?_eq_getElem h1, List.getElem?_eq_getElem h]
    simp
  · have h1 : (l.take c).length ≤ j := by
      rw [List.length_take]
      omega
    rw [List.getD_eq_getElem?_getD, List.getD_eq_getElem?_getD,
      List.getElem?_eq_none h, List.getElem?_eq_none h1]

lemma flatten_getD_base {α : Type} (d : α) : ∀ (xss : List (List α)) (s i : ℕ),
    s < xss.length → i < (xss.getD s []).length →
    xss.flatten.getD (((xss.take s).map List.length).sum + i) d
      = (xss.getD s []).getD i d := by
  intro xss
  induction xss with
  | nil => intro s i hs _; simp at hs
  | cons x rest ih =>
      intro s i hs hi
      cases s with
      | zero =>
          simp only [List.getD_cons_zero] at hi ⊢
          simp only [List.take_zero, List.map_nil, List.sum_nil, Nat.zero_add,
            List.flatten_cons]
          exact getD_append_left _ _ _ _ hi
      | succ s =>
          simp only [List.getD_cons_succ] at hi ⊢
          simp only [List.take_succ_cons, List.map_cons, List.sum_cons,
            List.flatten_cons, List.length_cons] at hs ⊢
          rw [Nat.add_assoc, getD_append_right _ _ _ _ (by omega),
            Nat.add_sub_cancel_left]
          exact ih s i (by omega) hi

lemma base_add_lt {α : Type} : ∀ (xss : List (List α)) (s i : ℕ),
    s < xss.length → i < (xss.getD s []).length →
    ((xss.take s).map List.length).sum + i < (xss.map List.length).sum := by
  intro xss
  induction xss with
  | nil => intro s i hs _; simp at hs
  | cons x rest ih =>
      intro s i hs hi
      cases s with
      | zero =>
          simp only [List.getD_cons_zero] at hi
          simp only [List.take_zero, List.map_nil, List.sum_nil, Nat.zero_add,
            List.map_cons, List.sum_cons]
          omega
      | succ s =>
          simp only [List.getD_cons_succ] at hi
          simp only [List.length_cons] at hs
          simp only [List.take_succ_cons, List.map_cons, List.sum_cons]
          have h := ih s i (by omega) hi
          omega

lemma reassembleGo_length (ewp : List (List Vec)) : ∀ (parts : List (List ℕ))
    (cur : ℕ), (reassembleGo ewp parts cur).length = parts.length := by
  intro parts
  induction parts with
  | nil => intro cur; rfl
  | cons sp rest ih =>
      intro cur
      simp only [reassembleGo, List.length_cons, ih]

lemma reassembleGo_getD (ewp : List (List Vec)) : ∀ (parts : List (List ℕ))
    (s cur : ℕ), s < parts.length →
    (reassembleGo ewp parts cur).getD s []
      = ((parts.getD s []).enum.flatMap fun x =>
          (ewp.getD ((cur + ((parts.take s).map List.length).sum) + x.1) []).take
            x.2) := by
  intro parts
  induction parts with
  | nil => intro s cur hs; simp at hs
  | cons sp rest ih =>
      intro s cur hs
      cases s with
      | zero =>
          simp only [reassembleGo, List.getD_cons_zero, List.take_zero,
            List.map_nil, List.sum_nil, Nat.add_zero]
      | succ s =>
          simp only [reassembleGo, List.getD_cons_succ, List.take_succ_cons,
            List.map_cons, List.sum_cons]
          simp only [List.length_cons] at hs
          rw [ih s (cur + sp.length) (by omega), Nat.add_assoc]

lemma enum_flatMap_getD {α β : Type} (g : ℕ → α → List β) (d : α)
    (l : List α) :
    (l.enum.flatMap fun x => g x.1 x.2)
      = (List.range l.length).flatMap fun j => g j (l.getD j d) := by
  unfold List.flatMap
  exact congrArg List.flatten (enum_map_getD (fun j a => g j a) d l)

lemma range_map_getD {α : Type} (d : α) : ∀ (l : List α),
    (List.range l.length).map (fun i => l.getD i d) = l := by
  intro l
  apply List.ext_getElem
  · simp
  · intro i h1 h2
    simp only [List.getElem_map, List.getElem_range]
    rw [List.getD_eq_getElem?_getD, List.getElem?_eq_getElem h2]
    rfl

lemma foldl_max_padded (seg : List ℕ) (maxLen pad : ℕ) (hpad : 0 < pad)
    (hv : ∀ v ∈ seg, v ≤ maxLen) :
    (seg ++ List.replicate pad maxLen).foldl max 0 = maxLen := by
  apply le_antisymm
  · apply foldl_max_le
    · omega
    · intro x hx
      rcases List.mem_append.mp hx with h | h
      · exact hv x h
      · rw [List.eq_of_mem_replicate h]
  · apply le_foldl_max_mem
    exact List.mem_append_right _ (List.mem_replicate.mpr ⟨by omega, rfl⟩)

lemma bucketPositions_append_pad (seg : List ℕ) (pad maxLen j : ℕ)
    (hj : j ≠ maxLen) :
    bucketPositions (seg ++ List.replicate pad maxLen) j
      = bucketPositions seg j := by
  unfold bucketPositions
  rw [List.length_append, List.length_replicate, List.range_add,
    List.filter_append]
  have h1 : (List.range seg.length).filter
        (fun p => (seg ++ List.replicate pad maxLen).getD p 0 == j)
      = (List.range seg.length).filter (fun p => seg.getD p 0 == j) := by
    apply List.filter_congr
    intro p hp
    rw [getD_append_left _ _ _ _ (List.mem_range.mp hp)]
  have h2 : ((List.range pad).map (seg.length + ·)).filter
        (fun p => (seg ++ List.replicate pad maxLen).getD p 0 == j) = [] := by
    rw [List.filter_eq_nil_iff]
    intro p hp
    obtain ⟨q, hq, hqe⟩ := List.mem_map.mp hp
    subst hqe
    rw [getD_append_right _ _ _ _ (by omega), Nat.add_sub_cancel_left,
      List.getD_eq_getElem?_getD, List.getElem?_replicate,
      if_pos (List.mem_range.mp hq)]
    simp only [beq_iff_eq]
    exact fun h => hj h.symm
  rw [h1, h2, List.append_nil]

lemma length_flatMap_range_take (rows : ℕ → List Vec) (counts : List ℕ)
    (hcount : ∀ i, i < counts.length → counts.getD i 0 ≤ (rows i).length) :
    ((List.range counts.length).flatMap fun i =>
        (rows i).take (counts.getD i 0)).length = counts.sum := by
  rw [List.length_flatMap]
  simp only [Function.comp_def]
  have h : (List.range counts.length).map
        (fun i => ((rows i).take (counts.getD i 0)).length)
      = (List.range counts.length).map (fun i => counts.getD i 0) := by
    apply List.map_congr_left
    intro i hi
    rw [List.length_take]
    have hc := hcount i (List.mem_range.mp hi)
    omega
  rw [h, range_map_getD]

/-! ## Batch glue lemmas (C1) -/

lemma getD_mem {α : Type} {l : List α} {n : ℕ} {d : α} (h : n < l.length) :
    l.getD n d ∈ l := by
  rw [List.getD_eq_getElem?_getD, List.getElem?_eq_getElem h]
  exact List.getElem_mem h

lemma padTo_eq_append (n pad : ℕ) (row : List ℕ) :
    padTo n pad row = row ++ List.replicate (n - row.length) pad := rfl

lemma batchSubwords_eq_flatten (m : WModel) (f : ℕ) (ss : List (List String)) :
    batchSubwords m f ss
      = (ss.map fun x => (tokenizeSentence m f x).subwords).flatten := by
  unfold batchSubwords tokenizedBatch List.flatMap
  rw [List.map_map]
  rfl

lemma batchSegments_eq_flatten (m : WModel) (f : ℕ) (ss : List (List String)) :
    batchSegments m f ss
      = (ss.map fun x => (tokenizeSentence m f x).segments).flatten := by
  unfold batchSegments tokenizedBatch List.flatMap
  rw [List.map_map]
  rfl

lemma batchParts_eq_map (m : WModel) (f : ℕ) (ss : List (List String)) :
    batchParts m f ss = ss.map fun x => (tokenizeSentence m f x).parts := by
  unfold batchParts tokenizedBatch
  rw [List.map_map]
  rfl

lemma tok_lengths_maps (m : WModel) (f : ℕ) (ss : List (List String)) :
    ((ss.map fun x => (tokenizeSentence m f x).subwords).map List.length
        = (ss.map fun x => (tokenizeSentence m f x).parts).map List.length) ∧
      ((ss.map fun x => (tokenizeSentence m f x).segments).map List.length
        = (ss.map fun x => (tokenizeSentence m f x).parts).map List.length) := by
  constructor <;>
  · rw [List.map_map, List.map_map]
    apply List.map_congr_left
    intro x _
    simp only [Function.comp_apply]
    rcases tokenizeSentence_lengths m f x with ⟨h1, h2⟩
    first
      | exact h1
      | exact h2

lemma seg_lengths_map_eq (m : WModel) (f : ℕ) (ss : List (List String)) :
    (ss.map fun x => (tokenizeSentence m f x).segments).map List.length
      = (ss.map fun x => (tokenizeSentence m f x).subwords).map List.length := by
  rw [(tok_lengths_maps m f ss).2, ← (tok_lengths_maps m f ss).1]

lemma parts_lengths_map_eq (m : WModel) (f : ℕ) (ss : List (List String)) :
    (ss.map fun x => (tokenizeSentence m f x).parts).map List.length
      = (ss.map fun x => (tokenizeSentence m f x).subwords).map List.length := by
  rw [← (tok_lengths_maps m f ss).1]

lemma take_map_length_sum_eq {α β : Type} {xss : List (List α)}
    {yss : List (List β)} (h : xss.map List.length = yss.map List.length)
    (s : ℕ) :
    ((xss.take s).map List.length).sum = ((yss.take s).map List.length).sum := by
  rw [List.map_take, List.map_take, h]

/-- Characterization of the graph output row holding part `i` of sentence
`s`: the row has `maxLen` word buckets; the part's word count fits; and each
word bucket `j` below the part's word count is the mean over the part's own
subword positions with segment index `j` (padding and sentinel excluded) of
the layer-averaged hidden states, shifted past the boundary token. -/
lemma graph_row_spec (m : WModel) (f : ℕ) (sentences : List (List String))
    (maxLen maxSub : ℕ)
    (hL : pyMax (sentences.map List.length) = some maxLen)
    (hS : pyMax ((batchSubwords m f sentences).map List.length) = some maxSub)
    (s : ℕ) (hs : s < sentences.length) (i : ℕ)
    (hi : i < (tokenizeSentence m f (sentences.getD s [])).parts.length) :
    ((graphWordEmbeddings m (npSubwords m f sentences maxSub)
        (npSegments m f sentences maxSub maxLen)).getD
        ((((sentences.map fun x => (tokenizeSentence m f x).subwords).take s).map
            List.length).sum + i) []).length = maxLen ∧
      (tokenizeSentence m f (sentences.getD s [])).parts.getD i 0 ≤ maxLen ∧
      ∀ j, j < (tokenizeSentence m f (sentences.getD s [])).parts.getD i 0 →
        ((graphWordEmbeddings m (npSubwords m f sentences maxSub)
            (npSegments m f sentences maxSub maxLen)).getD
            ((((sentences.map fun x => (tokenizeSentence m f x).subwords).take
                s).map List.length).sum + i) []).getD j vzero
          = fun d =>
              ((bucketPositions
                  ((tokenizeSentence m f (sentences.getD s [])).segments.getD i
                    []) j).map
                fun p =>
                  reduceMean
                    (pySlice
                      (m.layersOf (padTo maxSub 0
                        ((tokenizeSentence m f
                          (sentences.getD s [])).subwords.getD i [])))
                      (some m.layerStart) m.layerEnd) (p + 1) d).sum
              / ((bucketPositions
                  ((tokenizeSentence m f (sentences.getD s [])).segments.getD i
                    []) j).length : ℚ) := by
  obtain ⟨gs, hgne, hfl, hparts, hw, hgsegs, hintra, hbound⟩ :=
    tokenizeSentence_groups m f (sentences.getD s [])
  have hglen : (tokenizeSentence m f (sentences.getD s [])).parts.length
      = gs.length := by rw [hparts, List.length_map]
  have hi' : i < gs.length := by omega
  have hsubE : (tokenizeSentence m f (sentences.getD s [])).subwords.getD i []
      = wrapTokens m (rawOf m f (gs.getD i [])) := by
    rw [hw]
    exact getD_map_of_lt _ _ _ _ [] (by simpa using hi')
  have hsegE : (tokenizeSentence m f (sentences.getD s [])).segments.getD i []
      = segsOf m f (gs.getD i []) := by
    rw [hgsegs]
    exact getD_map_of_lt _ _ _ _ [] (by simpa using hi')
  have hcntE : (tokenizeSentence m f (sentences.getD s [])).parts.getD i 0
      = (gs.getD i []).length := by
    rw [hparts]
    exact getD_map_of_lt _ _ _ _ [] (by simpa using hi')
  have hgmem : gs.getD i [] ∈ gs := getD_mem (by simpa using hi')
  have hglen_le : (gs.getD i []).length ≤ (sentences.getD s []).length := by
    rw [hfl, List.length_flatten]
    exact le_sum_of_mem_nat (List.mem_map_of_mem List.length hgmem)
  have hsent_le : (sentences.getD s []).length ≤ maxLen :=
    le_pyMax hL (List.mem_map_of_mem List.length (getD_mem hs))
  -- flat-row indexing
  have hSlen : s < (sentences.map fun x =>
      (tokenizeSentence m f x).subwords).length := by
    rw [List.length_map]
    exact hs
  have hSS_getD : (sentences.map fun x =>
        (tokenizeSentence m f x).subwords).getD s []
      = (tokenizeSentence m f (sentences.getD s [])).subwords :=
    getD_map_of_lt _ _ _ _ [] hs
  have hiSS : i < ((sentences.map fun x =>
      (tokenizeSentence m f x).subwords).getD s []).length := by
    rw [hSS_getD, (tokenizeSentence_lengths m f (sentences.getD s [])).1]
    exact hi
  have hrty := base_add_lt (sentences.map fun x =>
    (tokenizeSentence m f x).subwords) s i hSlen hiSS
  have hBSlen : (batchSubwords m f sentences).length
      = ((sentences.map fun x =>
          (tokenizeSentence m f x).subwords).map List.length).sum := by
    rw [batchSubwords_eq_flatten, List.length_flatten]
  have hr : (((sentences.map fun x =>
        (tokenizeSentence m f x).subwords).take s).map List.length).sum + i
      < (batchSubwords m f sentences).length := by
    rw [hBSlen]
    exact hrty
  have hBS_getD : (batchSubwords m f sentences).getD
        ((((sentences.map fun x =>
          (tokenizeSentence m f x).subwords).take s).map List.length).sum + i) []
      = (tokenizeSentence m f (sentences.getD s [])).subwords.getD i [] := by
    rw [batchSubwords_eq_flatten,
      flatten_getD_base [] _ s i hSlen hiSS, hSS_getD]
  -- segments side
  have hGlen : s < (sentences.map fun x =>
      (tokenizeSentence m f x).segments).length := by
    rw [List.length_map]
    exact hs
  have hSG_getD : (sentences.map fun x =>
        (tokenizeSentence m f x).segments).getD s []
      = (tokenizeSentence m f (sentences.getD s [])).segments :=
    getD_map_of_lt _ _ _ _ [] hs
  have hiSG : i < ((sentences.map fun x =>
      (tokenizeSentence m f x).segments).getD s []).length := by
    rw [hSG_getD, (tokenizeSentence_lengths m f (sentences.getD s [])).2]
    exact hi
  have hbaseG : (((sentences.map fun x =>
        (tokenizeSentence m f x).segments).take s).map List.length).sum
      = (((sentences.map fun x =>
        (tokenizeSentence m f x).subwords).take s).map List.length).sum :=
    take_map_length_sum_eq (seg_lengths_map_eq m f sentences) s
  have hBGlen : (batchSegments m f sentences).length
      = (batchSubwords m f sentences).length :=
    batchSegments_length_eq m f sentences
  have hrG : (((sentences.map fun x =>
        (tokenizeSentence m f x).subwords).take s).map List.length).sum + i
      < (batchSegments m f sentences).length := by
    rw [hBGlen]
    exact hr
  have hBG_getD : (batchSegments m f sentences).getD
        ((((sentences.map fun x =>
          (tokenizeSentence m f x).subwords).take s).map List.length).sum + i) []
      = (tokenizeSentence m f (sentences.getD s [])).segments.getD i [] := by
    rw [batchSegments_eq_flatten, ← hbaseG,
      flatten_getD_base [] _ s i hGlen hiSG, hSG_getD]
  -- padded rows
  have hnpS_getD : (npSubwords m f sentences maxSub).getD
        ((((sentences.map fun x =>
          (tokenizeSentence m f x).subwords).take s).map List.length).sum + i) []
      = padTo maxSub 0
          ((tokenizeSentence m f (sentences.getD s [])).subwords.getD i []) := by
    unfold npSubwords
    rw [getD_map_of_lt _ _ _ _ [] hr, hBS_getD]
  have hnpG_getD : (npSegments m f sentences maxSub maxLen).getD
        ((((sentences.map fun x =>
          (tokenizeSentence m f x).subwords).take s).map List.length).sum + i) []
      = padTo (maxSub - 1) maxLen
          ((tokenizeSentence m f (sentences.getD s [])).segments.getD i []) := by
    unfold npSegments
    rw [getD_map_of_lt _ _ _ _ [] hrG, hBG_getD]
  -- length bookkeeping for the row
  have hwrap_le : ((tokenizeSentence m f
      (sentences.getD s [])).subwords.getD i []).length ≤ maxSub := by
    rw [← hBS_getD]
    exact le_pyMax hS (List.mem_map_of_mem List.length (getD_mem hr))
  have hwrap_len : ((tokenizeSentence m f
      (sentences.getD s [])).subwords.getD i []).length
      = (rawOf m f (gs.getD i [])).length + 2 := by
    rw [hsubE, length_wrapTokens]
  have hseg_len : ((tokenizeSentence m f
      (sentences.getD s [])).segments.getD i []).length
      = (rawOf m f (gs.getD i [])).length := by
    rw [hsegE, length_segsOf]
  have hvals : ∀ v ∈ (tokenizeSentence m f
      (sentences.getD s [])).segments.getD i [], v ≤ maxLen ∧ v < maxLen := by
    intro v hv
    have hrowmem : (tokenizeSentence m f
        (sentences.getD s [])).segments.getD i []
        ∈ (tokenizeSentence m f (sentences.getD s [])).segments :=
      getD_mem (by
        rw [(tokenizeSentence_lengths m f (sentences.getD s [])).2]
        exact hi)
    have h1 := seg_row_values_lt m f (sentences.getD s []) _ hrowmem v hv
    omega
  have hfold : (padTo (maxSub - 1) maxLen
      ((tokenizeSentence m f
        (sentences.getD s [])).segments.getD i [])).foldl max 0 = maxLen := by
    rw [padTo_eq_append]
    exact foldl_max_padded _ _ _ (by omega) (fun v hv => (hvals v hv).1)
  have hpadne : padTo (maxSub - 1) maxLen
      ((tokenizeSentence m f (sentences.getD s [])).segments.getD i [])
      ≠ [] := by
    apply List.ne_nil_of_length_pos
    rw [padTo_length (by omega)]
    omega
  -- the row itself
  have hewp : (graphWordEmbeddings m (npSubwords m f sentences maxSub)
        (npSegments m f sentences maxSub maxLen)).getD
        ((((sentences.map fun x =>
          (tokenizeSentence m f x).subwords).take s).map List.length).sum + i) []
      = (segmentMean
          (fun p => reduceMean
            (pySlice (m.layersOf (padTo maxSub 0
                ((tokenizeSentence m f
                  (sentences.getD s [])).subwords.getD i [])))
              (some m.layerStart) m.layerEnd) (p + 1))
          (padTo (maxSub - 1) maxLen
            ((tokenizeSentence m f
              (sentences.getD s [])).segments.getD i []))).dropLast := by
    rw [graphWordEmbeddings_getD m _ _ _
      (by rw [npSubwords, List.length_map]; exact hr)
      (by rw [npSegments, List.length_map]; exact hrG),
      hnpS_getD, hnpG_getD]
  have hlenrow : ((graphWordEmbeddings m (npSubwords m f sentences maxSub)
        (npSegments m f sentences maxSub maxLen)).getD
        ((((sentences.map fun x =>
          (tokenizeSentence m f x).subwords).take s).map List.length).sum + i)
        []).length = maxLen := by
    rw [hewp, List.length_dropLast, segmentMean_length _ _ hpadne, hfold]
    omega
  refine ⟨hlenrow, by omega, ?_⟩
  intro j hj
  have hjlt : j < maxLen := by
    rw [hcntE] at hj
    omega
  funext d
  rw [hewp,
    getD_dropLast _ _ _ (by rw [segmentMean_length _ _ hpadne, hfold]; omega),
    segmentMean_getD _ _ _ hpadne (by rw [hfold]; omega) d,
    padTo_eq_append (maxSub - 1) maxLen,
    bucketPositions_append_pad _ _ _ _ (by omega)]

/-- C1: for every batch and every sentence position `s` in it, the returned
list has, at position `s`, an array with exactly that sentence's word count
of rows; row `k` is exactly the reference per-word embedding of word `k`
computed from that sentence's own tokenization alone (no padding rows, no
rows of any other sentence), both for split and unsplit sentences. -/
theorem C1_per_sentence_word_rows (models : List (String × WModel))
    (name : String) (m : WModel) (f : ℕ) (sentences : List (List String))
    (s : ℕ) (hm : models.lookup name = some m) (hs : s < sentences.length) :
    ∃ out maxSub,
      (computeEmbeddings models name f sentences).2 = .ok out ∧
      pyMax ((batchSubwords m f sentences).map List.length) = some maxSub ∧
      out.length = sentences.length ∧
      (out.getD s []).length = (sentences.getD s []).length ∧
      ∀ k, k < (sentences.getD s []).length →
        (out.getD s []).getD k vzero
          = specWordEmbedding m f maxSub (sentences.getD s []) k := by
  have hne : sentences ≠ [] := by
    intro h
    rw [h] at hs
    simp at hs
  obtain ⟨maxLen, hL⟩ := pyMax_isSome_of_ne_nil
    (l := sentences.map List.length) (by simpa using hne)
  obtain ⟨maxSub, hS⟩ := pyMax_isSome_of_ne_nil
    (l := (batchSubwords m f sentences).map List.length)
    (by simpa using batchSubwords_ne_nil m f hne)
  have hPlen : s < (batchParts m f sentences).length := by
    rw [batchParts_eq_map, List.length_map]
    exact hs
  have hPgetD : (batchParts m f sentences).getD s []
      = (tokenizeSentence m f (sentences.getD s [])).parts := by
    rw [batchParts_eq_map]
    exact getD_map_of_lt _ _ _ _ [] hs
  have hbaseP : (((batchParts m f sentences).take s).map List.length).sum
      = (((sentences.map fun x =>
          (tokenizeSentence m f x).subwords).take s).map List.length).sum := by
    rw [batchParts_eq_map]
    exact take_map_length_sum_eq (parts_lengths_map_eq m f sentences) s
  have hout : (reassemble
        (graphWordEmbeddings m (npSubwords m f sentences maxSub)
          (npSegments m f sentences maxSub maxLen))
        (batchParts m f sentences)).getD s []
      = (List.range
          (tokenizeSentence m f (sentences.getD s [])).parts.length).flatMap
          (fun i =>
            ((graphWordEmbeddings m (npSubwords m f sentences maxSub)
              (npSegments m f sentences maxSub maxLen)).getD
              ((((sentences.map fun x =>
                (tokenizeSentence m f x).subwords).take s).map
                  List.length).sum + i) []).take
              ((tokenizeSentence m f (sentences.getD s [])).parts.getD i 0)) := by
    unfold reassemble
    rw [reassembleGo_getD _ _ s 0 hPlen, hPgetD, hbaseP,
      enum_flatMap_getD
        (fun j c =>
          ((graphWordEmbeddings m (npSubwords m f sentences maxSub)
            (npSegments m f sentences maxSub maxLen)).getD
            ((0 + (((sentences.map fun x =>
              (tokenizeSentence m f x).subwords).take s).map
                List.length).sum) + j) []).take c) 0]
    simp only [Nat.zero_add]
  have hcounts : ∀ i, i <
      (tokenizeSentence m f (sentences.getD s [])).parts.length →
      (tokenizeSentence m f (sentences.getD s [])).parts.getD i 0
        ≤ ((graphWordEmbeddings m (npSubwords m f sentences maxSub)
            (npSegments m f sentences maxSub maxLen)).getD
            ((((sentences.map fun x =>
              (tokenizeSentence m f x).subwords).take s).map
                List.length).sum + i) []).length := by
    intro i hi
    obtain ⟨ha, hb, -⟩ :=
      graph_row_spec m f sentences maxLen maxSub hL hS s hs i hi
    rw [ha]
    exact hb
  have hsum : (tokenizeSentence m f (sentences.getD s [])).parts.sum
      = (sentences.getD s []).length :=
    tokenizeSentence_parts_sum m f (sentences.getD s [])
  refine ⟨reassemble
      (graphWordEmbeddings m (npSubwords m f sentences maxSub)
        (npSegments m f sentences maxSub maxLen))
      (batchParts m f sentences), maxSub, ?_, hS, ?_, ?_, ?_⟩
  · unfold computeEmbeddings
    rw [hm]
    simp only
    unfold computeEmbeddingsBody
    rw [hL, hS]
  · unfold reassemble
    rw [reassembleGo_length, batchParts_eq_map, List.length_map]
  · rw [hout,
      length_flatMap_range_take
        (fun i =>
          (graphWordEmbeddings m (npSubwords m f sentences maxSub)
            (npSegments m f sentences maxSub maxLen)).getD
            ((((sentences.map fun x =>
              (tokenizeSentence m f x).subwords).take s).map
                List.length).sum + i) [])
        _ hcounts, hsum]
  · intro k hk
    have hk' : k < (tokenizeSentence m f (sentences.getD s [])).parts.sum := by
      omega
    obtain ⟨hI, hJ, hIJ⟩ :=
      partIndex_spec (tokenizeSentence m f (sentences.getD s [])).parts k hk'
    rw [hout]
    rw [show (List.range
          (tokenizeSentence m f (sentences.getD s [])).parts.length).flatMap
          (fun i =>
            ((graphWordEmbeddings m (npSubwords m f sentences maxSub)
              (npSegments m f sentences maxSub maxLen)).getD
              ((((sentences.map fun x =>
                (tokenizeSentence m f x).subwords).take s).map
                  List.length).sum + i) []).take
              ((tokenizeSentence m f (sentences.getD s [])).parts.getD i 0))
        = ((List.range
            (tokenizeSentence m f (sentences.getD s [])).parts.length).map
            (fun i =>
              ((graphWordEmbeddings m (npSubwords m f sentences maxSub)
                (npSegments m f sentences maxSub maxLen)).getD
                ((((sentences.map fun x =>
                  (tokenizeSentence m f x).subwords).take s).map
                    List.length).sum + i) []).take
                ((tokenizeSentence m f
                  (sentences.getD s [])).parts.getD i 0))).flatten
        from rfl]
    have hlensEq : ((List.range
          (tokenizeSentence m f (sentences.getD s [])).parts.length).map
          (fun i =>
            ((graphWordEmbeddings m (npSubwords m f sentences maxSub)
              (npSegments m f sentences maxSub maxLen)).getD
              ((((sentences.map fun x =>
                (tokenizeSentence m f x).subwords).take s).map
                  List.length).sum + i) []).take
              ((tokenizeSentence m f
                (sentences.getD s [])).parts.getD i 0))).map List.length
        = (tokenizeSentence m f (sentences.getD s [])).parts := by
      rw [List.map_map]
      have hcg : (List.range
            (tokenizeSentence m f (sentences.getD s [])).parts.length).map
            (List.length ∘ fun i =>
              ((graphWordEmbeddings m (npSubwords m f sentences maxSub)
                (npSegments m f sentences maxSub maxLen)).getD
                ((((sentences.map fun x =>
                  (tokenizeSentence m f x).subwords).take s).map
                    List.length).sum + i) []).take
                ((tokenizeSentence m f
                  (sentences.getD s [])).parts.getD i 0))
          = (List.range
              (tokenizeSentence m f (sentences.getD s [])).parts.length).map
              (fun i =>
                (tokenizeSentence m f (sentences.getD s [])).parts.getD i 0) := by
        apply List.map_congr_left
        intro i hi
        simp only [Function.comp_apply, List.length_take]
        have hc := hcounts i (List.mem_range.mp hi)
        omega
      rw [hcg, range_map_getD]
    have hkk : k < (((List.range
          (tokenizeSentence m f (sentences.getD s [])).parts.length).map
          (fun i =>
            ((graphWordEmbeddings m (npSubwords m f sentences maxSub)
              (npSegments m f sentences maxSub maxLen)).getD
              ((((sentences.map fun x =>
                (tokenizeSentence m f x).subwords).take s).map
                  List.length).sum + i) []).take
              ((tokenizeSentence m f
                (sentences.getD s [])).parts.getD i 0))).map
          List.length).sum := by
      rw [hlensEq]
      exact hk'
    rw [flatten_getD vzero _ k hkk, hlensEq]
    have hIn : partIndex (tokenizeSentence m f (sentences.getD s [])).parts k
        < (tokenizeSentence m f (sentences.getD s [])).parts.length := hI
    rw [getD_map_of_lt _ _ _ [] 0 (by simpa using hIn), range_getD _ _ hIn,
      getD_take _ _ _ _ hJ]
    obtain ⟨-, -, hval⟩ := graph_row_spec m f sentences maxLen maxSub hL hS s hs
      (partIndex (tokenizeSentence m f (sentences.getD s [])).parts k) hIn
    rw [hval _ hJ]
    rfl

theorem C1_witness :
    (trivialRegistry.lookup "m" = some trivialModel ∧
        0 < ([["a", "b"]] : List (List String)).length) ∧
      ∃ out maxSub,
        (computeEmbeddings trivialRegistry "m" 64 [["a", "b"]]).2 = .ok out ∧
        pyMax ((batchSubwords trivialModel 64 [["a", "b"]]).map List.length)
          = some maxSub ∧
        out.length = ([["a", "b"]] : List (List String)).length ∧
        (out.getD 0 []).length
          = (([["a", "b"]] : List (List String)).getD 0 []).length ∧
        ∀ k, k < (([["a", "b"]] : List (List String)).getD 0 []).length →
          (out.getD 0 []).getD k vzero
            = specWordEmbedding trivialModel 64 maxSub
                (([["a", "b"]] : List (List String)).getD 0 []) k :=
  ⟨⟨rfl, by decide⟩,
    C1_per_sentence_word_rows trivialRegistry "m" trivialModel 64 [["a", "b"]] 0
      rfl (by decide)⟩

/-- C2: tokenizing a sentence splits its words into contiguous groups
(parts); each part's subword row is wrapped in the model-specific start/end
boundary tokens (the final part included); the recorded per-part word counts
are exactly the group sizes, summing to the sentence's word count; a word is
added to the open part exactly when it fits — every word after the first of
a part satisfied `current subwords + word subwords ≤ 510`
(`MAX_SUBWORDS_PER_SENTENCE`), and every split was forced by the next word
overflowing that bound. -/
theorem C2_split_exactly_on_overflow (m : WModel) (f : ℕ)
    (sentence : List String) :
    ∃ gs : List (List String), gs ≠ [] ∧ sentence = gs.flatten ∧
      (tokenizeSentence m f sentence).parts = gs.map List.length ∧
      (tokenizeSentence m f sentence).parts.sum = sentence.length ∧
      (tokenizeSentence m f sentence).subwords
        = gs.map (fun g => wrapTokens m (rawOf m f g)) ∧
      (tokenizeSentence m f sentence).segments = gs.map (segsOf m f) ∧
      (∀ g ∈ gs, Intra m f g) ∧
      Boundary m f gs := by
  obtain ⟨gs, hne, hfl, hp, hw, hg, hintra, hbound⟩ :=
    tokenizeSentence_groups m f sentence
  exact ⟨gs, hne, hfl, hp,
    by rw [hp, hfl, ← List.length_flatten], hw, hg, hintra, hbound⟩

lemma single_word_of_intra {m : WModel} {f : ℕ} {g : List String} {w : String}
    (hintra : Intra m f g) (h0 : 0 < g.length)
    (hbig : (encodeWord m f (g.getD 0 "")).length > MAX_SUBWORDS_PER_SENTENCE)
    (hw : g.getD 0 "" = w) : g = [w] := by
  cases g with
  | nil => simp at h0
  | cons a t =>
      cases t with
      | nil =>
          simp only [List.getD_cons_zero] at hw
          rw [hw]
      | cons b t' =>
          have hlt : 1 < (a :: b :: t').length := by simp
          have := hintra 1 Nat.one_pos hlt
          simp only [List.take_succ_cons, List.take_zero, List.getD_cons_zero] at hbig
          have htake : rawOf m f ((a :: b :: t').take 1) = encodeWord m f a := by
            simp [rawOf]
          rw [htake] at this
          omega

/-! ## Claim theorem: the averaging graph (C3) -/

/-- C3: in the traced graph, the output row has one entry per segment index
strictly below the row's maximum (the trailing sentinel bucket of
`segment_mean` is discarded by `[:, :-1]`); the selected hidden-state layers
are a contiguous slice of the layer list; and each word bucket is the
unweighted arithmetic mean, over the subword positions carrying that segment
index, of the unweighted arithmetic mean over the sliced layers of the
hidden state one position later (the leading boundary-token embedding at
position 0 is discarded by `[:, 1:]`). -/
theorem C3_layer_slice_and_segment_mean (m : WModel)
    (npSub npSeg : List (List ℕ)) (r w : ℕ)
    (hr1 : r < npSub.length) (hr2 : r < npSeg.length)
    (hne : npSeg.getD r [] ≠ [])
    (hw : w < (npSeg.getD r []).foldl max 0) :
    ((graphWordEmbeddings m npSub npSeg).getD r []).length
        = (npSeg.getD r []).foldl max 0 ∧
      (∃ a b,
        pySlice (m.layersOf (npSub.getD r [])) (some m.layerStart) m.layerEnd
          = ((m.layersOf (npSub.getD r [])).drop a).take (b - a)) ∧
      ∀ d, ((graphWordEmbeddings m npSub npSeg).getD r []).getD w vzero d
        = ((bucketPositions (npSeg.getD r []) w).map fun p =>
              ((pySlice (m.layersOf (npSub.getD r [])) (some m.layerStart)
                  m.layerEnd).map fun t => t (p + 1) d).sum
                / ((pySlice (m.layersOf (npSub.getD r [])) (some m.layerStart)
                    m.layerEnd).length : ℚ)).sum
            / ((bucketPositions (npSeg.getD r []) w).length : ℚ) := by
  have hrow := graphWordEmbeddings_getD m npSub npSeg r hr1 hr2
  refine ⟨?_, pySlice_contiguous _ _ _, ?_⟩
  · rw [hrow, List.length_dropLast, segmentMean_length _ _ hne]
    omega
  · intro d
    rw [hrow, getD_dropLast _ _ _ (by rw [segmentMean_length _ _ hne]; omega),
      segmentMean_getD _ _ _ hne (by omega) d]
    rfl

/-- C3 witness data: two distinguishable layers. -/
def twoLayerModel : WModel :=
  ⟨fun _ => [0], 9, 9, fun _ => [fun p _ => (p : ℚ), fun _ d => (d : ℚ)],
    -4, none⟩

theorem C3_witness :
    ((0 : ℕ) < ([[5, 6, 7]] : List (List ℕ)).length ∧
        (0 : ℕ) < ([[0, 1]] : List (List ℕ)).length ∧
        ([[0, 1]] : List (List ℕ)).getD 0 [] ≠ [] ∧
        (0 : ℕ) < (([[0, 1]] : List (List ℕ)).getD 0 []).foldl max 0) ∧
      ((graphWordEmbeddings twoLayerModel [[5, 6, 7]] [[0, 1]]).getD 0 []).length
        = (([[0, 1]] : List (List ℕ)).getD 0 []).foldl max 0 :=
  ⟨⟨by decide, by decide, by decide, by decide⟩,
    (C3_layer_slice_and_segment_mean twoLayerModel [[5, 6, 7]] [[0, 1]] 0 0
      (by decide) (by decide) (by decide) (by decide)).1⟩

/-- C5: in the padded batch arrays, the subword id array pads every row with
`0` past its real subwords; the segment index array pads every row with the
batch's maximum sentence word count; real values are preserved at their
positions; and every real segment index in any part is strictly below that
sentinel, so the sentinel bucket sits strictly above all real buckets. -/
theorem C5_pad_values_and_sentinel (m : WModel) (f : ℕ)
    (sentences : List (List String)) (maxLen maxSub : ℕ)
    (hL : pyMax (sentences.map List.length) = some maxLen)
    (_hS : pyMax ((batchSubwords m f sentences).map List.length) = some maxSub)
    (r : ℕ) (hr : r < (batchSubwords m f sentences).length) :
    (∀ p, p < ((batchSubwords m f sentences).getD r []).length →
        ((npSubwords m f sentences maxSub).getD r []).getD p 7
          = ((batchSubwords m f sentences).getD r []).getD p 7) ∧
    (∀ p, ((batchSubwords m f sentences).getD r []).length ≤ p → p < maxSub →
        ((npSubwords m f sentences maxSub).getD r []).getD p 7 = 0) ∧
    (∀ p, p < ((batchSegments m f sentences).getD r []).length →
        ((npSegments m f sentences maxSub maxLen).getD r []).getD p 7
          = ((batchSegments m f sentences).getD r []).getD p 7) ∧
    (∀ p, ((batchSegments m f sentences).getD r []).length ≤ p → p < maxSub - 1 →
        ((npSegments m f sentences maxSub maxLen).getD r []).getD p 7 = maxLen) ∧
    (∀ row ∈ batchSegments m f sentences, ∀ v ∈ row, v < maxLen) := by
  have hr' : r < (batchSegments m f sentences).length := by
    rw [batchSegments_length_eq]; exact hr
  have hnpS : (npSubwords m f sentences maxSub).getD r []
      = padTo maxSub 0 ((batchSubwords m f sentences).getD r []) :=
    getD_map_of_lt _ _ _ _ [] hr
  have hnpG : (npSegments m f sentences maxSub maxLen).getD r []
      = padTo (maxSub - 1) maxLen ((batchSegments m f sentences).getD r []) :=
    getD_map_of_lt _ _ _ _ [] hr'
  refine ⟨?_, ?_, ?_, ?_, ?_⟩
  · intro p hp
    rw [hnpS]
    exact padTo_getD_left 7 hp
  · intro p hp1 hp2
    rw [hnpS]
    exact padTo_getD_pad 7 hp1 hp2
  · intro p hp
    rw [hnpG]
    exact padTo_getD_left 7 hp
  · intro p hp1 hp2
    rw [hnpG]
    exact padTo_getD_pad 7 hp1 hp2
  · intro row hrow v hv
    obtain ⟨s, hs, hrow'⟩ := (mem_batchSegments_iff m f sentences row).mp hrow
    have h1 := seg_row_values_lt m f s row hrow' v hv
    have h2 : s.length ≤ maxLen :=
      le_pyMax hL (List.mem_map_of_mem List.length hs)
    omega

theorem C5_witness :
    (pyMax (([["a", "b"]] : List (List String)).map List.length) = some 2 ∧
        pyMax ((batchSubwords trivialModel 64 [["a", "b"]]).map List.length)
          = some 4 ∧
        0 < (batchSubwords trivialModel 64 [["a", "b"]]).length) ∧
      (∀ row ∈ batchSegments trivialModel 64 [["a", "b"]], ∀ v ∈ row, v < 2) := by
  refine ⟨⟨rfl, rfl, ?_⟩, ?_⟩
  · show 0 < 1
    exact Nat.one_pos
  · exact (C5_pad_values_and_sentinel trivialModel 64 [["a", "b"]] 2 4 rfl rfl 0
      (by show 0 < 1; exact Nat.one_pos)).2.2.2.2

/-- C6: a word whose subword sequence alone exceeds
`MAX_SUBWORDS_PER_SENTENCE` ends up in a part of its own — the group of the
split containing it is exactly that one word — and the per-sentence word
count guarantee (part word counts summing to the sentence length) is
preserved. -/
theorem C6_long_word_gets_own_part (m : WModel) (f : ℕ)
    (sentence : List String) (p : ℕ) (hp : p < sentence.length)
    (hbig : (encodeWord m f (sentence.getD p "")).length
      > MAX_SUBWORDS_PER_SENTENCE) :
    ∃ (gs : List (List String)) (i : ℕ), sentence = gs.flatten ∧
      (tokenizeSentence m f sentence).parts = gs.map List.length ∧
      i < gs.length ∧
      gs.getD i [] = [sentence.getD p ""] ∧
      ((gs.take i).map List.length).sum = p ∧
      (tokenizeSentence m f sentence).parts.sum = sentence.length := by
  obtain ⟨gs, hne, hfl, hparts, hw, hg, hintra, hbound⟩ :=
    tokenizeSentence_groups m f sentence
  have hsum : (gs.map List.length).sum = sentence.length := by
    rw [hfl, ← List.length_flatten]
  have hp' : p < (gs.map List.length).sum := by omega
  obtain ⟨h1, h2, h3⟩ := partIndex_spec (gs.map List.length) p hp'
  have hglen : (gs.map List.length).getD (partIndex (gs.map List.length) p) 0
      = (gs.getD (partIndex (gs.map List.length) p) []).length :=
    getD_map_of_lt List.length gs _ 0 [] (by simpa using h1)
  have hjlen : partOffset (gs.map List.length) p
      < (gs.getD (partIndex (gs.map List.length) p) []).length := by
    rw [← hglen]; exact h2
  have hgmem : gs.getD (partIndex (gs.map List.length) p) [] ∈ gs := by
    rw [List.getD_eq_getElem?_getD,
      List.getElem?_eq_getElem (by simpa using h1)]
    exact List.getElem_mem _
  have hword : sentence.getD p ""
      = (gs.getD (partIndex (gs.map List.length) p) []).getD
          (partOffset (gs.map List.length) p) "" := by
    rw [hfl, flatten_getD "" gs p hp']
  -- the long word cannot be a non-first word of its part
  have hj0 : partOffset (gs.map List.length) p = 0 := by
    by_contra hj0
    have := hintra _ hgmem _ (Nat.pos_of_ne_zero hj0) hjlen
    rw [← hword] at this
    omega
  rw [hj0] at hword h3 hjlen
  -- and its part cannot contain a second word
  have hgeq : gs.getD (partIndex (gs.map List.length) p) []
      = [sentence.getD p ""] :=
    single_word_of_intra
      (hintra _ hgmem) hjlen (by rw [← hword]; exact hbig) (hword.symm)
  refine ⟨gs, partIndex (gs.map List.length) p, hfl, hparts,
    by simpa using h1, hgeq, ?_, ?_⟩
  · rw [← List.map_take] at h3
    omega
  · rw [hparts]; exact hsum

/-- C6 witness data: a model whose tokenizer expands every word into 600
subwords. -/
def bigWordModel : WModel :=
  ⟨fun _ => List.replicate 600 7, 1, 2, fun _ => [fun _ _ => 0], -4, none⟩

theorem C6_witness :
    (0 < ([("x" : String)] : List String).length ∧
        (encodeWord bigWordModel 64 (([("x" : String)] : List String).getD 0 "")).length
          > MAX_SUBWORDS_PER_SENTENCE) ∧
      ∃ (gs : List (List String)) (i : ℕ), [("x" : String)] = gs.flatten ∧
        (tokenizeSentence bigWordModel 64 ["x"]).parts = gs.map List.length ∧
        i < gs.length ∧
        gs.getD i [] = [(["x"] : List String).getD 0 ""] ∧
        ((gs.take i).map List.length).sum = 0 ∧
        (tokenizeSentence bigWordModel 64 ["x"]).parts.sum
          = ([("x" : String)] : List String).length := by
  have h1 : (0 : ℕ) < 1 := Nat.one_pos
  have h2 : (encodeWord bigWordModel 64 ("x")).length > MAX_SUBWORDS_PER_SENTENCE := by
    show (List.replicate 600 7).length > 510
    simp only [List.length_replicate]
    omega
  exact ⟨⟨by simp, by simpa using h2⟩,
    C6_long_word_gets_own_part bigWordModel 64 ["x"] 0 (by simp) (by simpa using h2)⟩
